import Mathlib

/-!
Verification of the rw_gjk 2D collision library.

Shallow embedding of the library over `ℝ` (idealised real arithmetic in place
of IEEE doubles).  The embedded functions follow the C++ sources:

* the vector primitive `v2` and its operations (`vectors.cpp` / inline
  implementations in `rw_gjk.cpp`);
* the GJK descent `shapes_are_overlapping` and the EPA refinement
  `get_overlap_amount` (the completed implementation: `rw_gjk.cpp`
  `shapesAreOverlapping`/`getOverlapInfo`, identical to the header-only
  variant `shapes_are_overlapping`/`get_overlap_amount`);
* the polygon constructors: `try_make_polygon` with the gift-wrapping helper
  `get_ordered_convex_corners` (rw_gjk.cpp), and the later variant built on
  `is_convex` with its explicit collinearity pre-check and a nullable
  output-shape pointer.

The open-ended `while (true)` loops of the source are modelled with an
explicit fuel parameter: `none` means the loop was still running after
`fuel` iterations.  The indeterminate (uninitialised) initial value of the
`radius` field of a freshly declared `Shape` is modelled by an explicit
parameter `r0`.  C `assert`s are no-ops (release semantics) and are not
modelled.
-/

noncomputable section

namespace rw_gjk

open Classical

/-- Two-component vector (`struct v2`), over idealised reals. -/
@[ext]

structure v2 where
  x : ℝ
  y : ℝ

namespace v2

instance : Zero v2 := ⟨⟨0, 0⟩⟩

instance : Add v2 := ⟨fun a b => ⟨a.x + b.x, a.y + b.y⟩⟩

instance : Sub v2 := ⟨fun a b => ⟨a.x - b.x, a.y - b.y⟩⟩

instance : Neg v2 := ⟨fun a => ⟨-a.x, -a.y⟩⟩

/-- `v2 * double` (componentwise scale). -/
def scale (a : v2) (r : ℝ) : v2 := ⟨a.x * r, a.y * r⟩

/-- `v2 / double`. -/
def sdiv (a : v2) (r : ℝ) : v2 := ⟨a.x / r, a.y / r⟩

/-- Squared Euclidean norm (proof helper). -/
def normSq (a : v2) : ℝ := a.x ^ 2 + a.y ^ 2

/-- `v2::length`, i.e. `hypot(x, y)`. -/
def length (a : v2) : ℝ := Real.sqrt (a.x ^ 2 + a.y ^ 2)

/-- `v2::distance`, i.e. `hypot(x - rh.x, y - rh.y)`. -/
def distance (a b : v2) : ℝ := Real.sqrt ((a.x - b.x) ^ 2 + (a.y - b.y) ^ 2)

/-- `v2::normalisedOrZero`. -/
def normalised_or_zero (a : v2) : v2 := if a = 0 then 0 else a.sdiv a.length

/-- `v2::rightNormalOrZero`. -/
def right_normal_or_zero (a : v2) : v2 := normalised_or_zero ⟨a.y, -a.x⟩

/-- `v2::rotated` (positive angle = clockwise, implemented by negating the
angle then applying the standard rotation matrix). -/
def rotated (a : v2) (radians : ℝ) : v2 :=
  ⟨a.x * Real.cos (-radians) - a.y * Real.sin (-radians),
   a.x * Real.sin (-radians) + a.y * Real.cos (-radians)⟩

end v2

/-- `dot`. -/
def dot (a b : v2) : ℝ := a.x * b.x + a.y * b.y

/-- Planar cross product (proof helper for side-of-line reasoning). -/
def cross (a b : v2) : ℝ := a.x * b.y - a.y * b.x

/-- `v2 origin = v2(0, 0)`. -/
def origin : v2 := 0

/-- `TINY_NUMBER` / `LINE_THICKNESS` (the EPS line half-thickness). -/
def TINY_NUMBER : ℝ := 1 / 10 ^ 7

/-- `v2::normalInDirectionOrZero` / `normal_in_direction_or_0`. -/
def normal_in_direction_or_0 (a direction : v2) : v2 :=
  let normal0 := a.right_normal_or_zero
  let dotResult := dot normal0 direction
  if 0 < dotResult then normal0
  else if dotResult < 0 then normal0.scale (-1)
  else 0

/-- `struct Shape` (polygon-only variants of the completed sources):
world position, rotation angle, corner list. -/
structure Shape where
  pos : v2
  angle : ℝ
  corners : List v2

/-- One step of the fold inside `getEdgeOfRotatedShape`: replace the running
best rotated corner only on a strictly larger dot product (`bestDot` starts
at `-INFINITY`, modelled by `Option.none`). -/
def support_step (ang : ℝ) (direction : v2) (acc : Option v2) (c : v2) : Option v2 :=
  let rc := c.rotated ang
  match acc with
  | none => some rc
  | some b => if dot b direction < dot rc direction then some rc else some b

/-- The search loop of `getEdgeOfRotatedShape`. -/
def best_rotated_corner (corners : List v2) (ang : ℝ) (direction : v2) : Option v2 :=
  corners.foldl (support_step ang direction) none

/-- `getEdgeOfRotatedShape` (the lambda inside `getMinkowskiDiffedEdge`);
for an empty corner list the source reads an uninitialised `v2`, modelled
by the default `0`. -/
def get_edge_of_rotated_shape (s : Shape) (direction : v2) : v2 :=
  (best_rotated_corner s.corners s.angle direction).getD 0

/-- `getMinkowskiDiffedEdge` / `get_minkowski_diffed_edge`. -/
def get_minkowski_diffed_edge (shape other_shape : Shape) (direction : v2) : v2 :=
  (shape.pos + get_edge_of_rotated_shape shape direction) -
    (other_shape.pos + get_edge_of_rotated_shape other_shape (-direction))

/-- `originIsBetweenPoints` (the completed sources use strict `>`). -/
def origin_is_between_points (a b : v2) : Prop :=
  0 < dot (origin - a) (b - a) ∧ 0 < dot (origin - b) (a - b)

/-- `improve2Simplex` / `improve_2_simplex` on the simplex `[a, b]`.
Returns (contains-origin flag, updated simplex, updated search direction);
the flag is set when the computed search direction is exactly zero. -/
def improve_2_simplex (a b : v2) : Bool × List v2 × v2 :=
  let r : List v2 × v2 :=
    if origin_is_between_points a b then
      ([a, b], normal_in_direction_or_0 (b - a) (origin - a))
    else if dot (b - a) (origin - a) ≤ 0 then
      ([a], (origin - a).normalised_or_zero)
    else
      ([b], (origin - b).normalised_or_zero)
  if r.2 = 0 then (true, r) else (false, r)

/-- `improveSimplex` / `improve_simplex`.  The wildcard branch is
unreachable for the simplex sizes produced by the GJK loop (the source
`assert`s `simplex.size() == 2`). -/
def improve_simplex (s : List v2) (sd : v2) : Bool × List v2 × v2 :=
  match s with
  | [a, b, c] =>
    let abN := normal_in_direction_or_0 (b - a) (a - c)
    let bcN := normal_in_direction_or_0 (c - b) (b - a)
    let caN := normal_in_direction_or_0 (a - c) (c - b)
    if 0 < dot abN (origin - a) then improve_2_simplex a b
    else if 0 < dot bcN (origin - b) then improve_2_simplex b c
    else if 0 < dot caN (origin - c) then improve_2_simplex c a
    else (true, s, sd)
  | [a, b] => improve_2_simplex a b
  | _ => (false, s, sd)

/-- The `while (true)` loop of `shapesAreOverlapping`, with fuel.
`some none` = returned `false` (no overlap); `some (some s)` = returned
`true` with final simplex `s` (the `simplexOut` parameter). -/
def gjk_loop (A B : Shape) : Nat → List v2 → v2 → Option (Option (List v2))
  | 0, _, _ => none
  | fuel + 1, simplex, sd =>
    let w := get_minkowski_diffed_edge A B sd
    if dot w sd ≤ TINY_NUMBER then some none
    else
      let r := improve_simplex (simplex ++ [w]) sd
      if r.1 then some (some r.2.1)
      else gjk_loop A B fuel r.2.1 r.2.2

/-- `shapesAreOverlapping` / `shapes_are_overlapping`: seed direction
`(0, 1)`, first support, then descend toward the origin. -/
def shapes_are_overlapping (fuel : Nat) (A B : Shape) : Option (Option (List v2)) :=
  let m0 := get_minkowski_diffed_edge A B ⟨0, 1⟩
  gjk_loop A B fuel [m0] (origin - m0)

/-- `getAmountForOriginOnEdge` / `get_amount_for_origin_on_edge`:
the degenerate-overlap nudge (the source patches `x := TINY_NUMBER` when
the position difference is exactly zero). -/
def get_amount_for_origin_on_edge (A B : Shape) : v2 :=
  let posDifference := B.pos - A.pos
  let posDifference := if posDifference = 0 then (⟨TINY_NUMBER, posDifference.y⟩ : v2)
                       else posDifference
  posDifference.normalised_or_zero.scale TINY_NUMBER

/-- Outward normal of polytope edge `i` (cyclic indexing), as computed twice
per iteration of the EPA loop. -/
def outer_normal_at (s : List v2) (i : Nat) : v2 :=
  let n := s.length
  let p0 := s.getD (i % n) 0
  let p1 := s.getD ((i + 1) % n) 0
  let p2 := s.getD ((i + 2) % n) 0
  normal_in_direction_or_0 (p1 - p0) (p0 - p2)

/-- The closest-edge scan of the EPA loop (`closestDistance = INFINITY`
modelled by `Option`; strict `<` keeps the first minimum).  Returns `none`
when a zero outward normal is encountered (the source then returns the
degenerate nudge), else the index of the closest edge. -/
def epa_scan (s : List v2) : Nat → Nat → Option (Nat × ℝ) → Option Nat
  | 0, _, best => some ((best.map Prod.fst).getD 0)
  | k + 1, i, best =>
    let nrm := outer_normal_at s i
    if nrm = 0 then none
    else
      let d := dot nrm (s.getD i 0)
      let best' := match best with
        | none => some (i, d)
        | some (bi, bd) => if d < bd then some (i, d) else some (bi, bd)
      epa_scan s k (i + 1) best'

/-- The `while (true)` EPA expansion loop of `getOverlapInfo` /
`get_overlap_amount`, with fuel. -/
def epa_loop (A B : Shape) : Nat → List v2 → Option v2
  | 0, _ => none
  | fuel + 1, s =>
    match epa_scan s s.length 0 none with
    | none => some (get_amount_for_origin_on_edge A B)
    | some i =>
      let i1 := (i + 1) % s.length
      let nrm := outer_normal_at s i
      let w := get_minkowski_diffed_edge A B nrm
      if w.distance (s.getD i 0) < TINY_NUMBER ∨ w.distance (s.getD i1 0) < TINY_NUMBER then
        some (nrm.normalised_or_zero.scale (dot nrm (s.getD i 0) + TINY_NUMBER))
      else
        epa_loop A B fuel (s.insertIdx i1 w)

/-- `get_overlap_amount` (= the `amount` field of `getOverlapInfo`):
`(0,0)` when GJK reports no overlap, the degenerate nudge when the final
simplex has fewer than two vertices, otherwise the EPA result. -/
def get_overlap_amount (fuel : Nat) (A B : Shape) : Option v2 :=
  match shapes_are_overlapping fuel A B with
  | none => none
  | some none => some 0
  | some (some simplex) =>
    if simplex.length < 2 then some (get_amount_for_origin_on_edge A B)
    else epa_loop A B fuel simplex

/-! ### Polygon construction (rw_gjk.cpp `try_make_polygon`) -/

/-- `contains_duplicates`: some pair of distinct positions holds equal
corners. -/
def contains_duplicates (l : List v2) : Prop := ¬ l.Pairwise (· ≠ ·)

/-- Polygon shape record produced by the constructors (with the stored
bounding `radius`). -/
structure PolyShape where
  pos : v2
  angle : ℝ
  radius : ℝ
  corners : List v2

/-- `corners.front()` then scan: leftmost corner, strict `<`, first kept on
ties. -/
def leftmost_corner (corners : List v2) : v2 :=
  corners.foldl (fun lm c => if c.x < lm.x then c else lm) (corners.headD 0)

/-- The candidate scan of `get_ordered_convex_corners`: skip corners equal
to the current hull end; track the highest `dot search_dir dirTo` among the
candidates with a nonnegative dot (`-INFINITY` start modelled by `Option`;
strict `>` keeps the first maximum). -/
def best_candidate (corners : List v2) (last sd : v2) : Option (v2 × ℝ) :=
  corners.foldl (fun acc c =>
    if c = last then acc
    else
      let cd := dot sd (c - last).normalised_or_zero
      match acc with
      | none => if 0 ≤ cd then some (c, cd) else acc
      | some (b, h) => if 0 ≤ cd ∧ h < cd then some (c, cd) else some (b, h)) none

/-- The gift-wrapping `while (true)` loop of `get_ordered_convex_corners`,
with fuel: either append the best candidate (stopping when it equals the
first hull corner) or rotate the search direction by 90 degrees. -/
def gift_wrap_loop (corners : List v2) : Nat → List v2 → v2 → Option (List v2)
  | 0, _, _ => none
  | fuel + 1, convex, sd =>
    match best_candidate corners (convex.getLastD 0) sd with
    | some (best, _) =>
      if best = convex.headD 0 then some convex
      else gift_wrap_loop corners fuel (convex ++ [best])
        (best - convex.getLastD 0).normalised_or_zero
    | none => gift_wrap_loop corners fuel convex sd.right_normal_or_zero

/-- `get_ordered_convex_corners`. -/
def get_ordered_convex_corners (fuel : Nat) (corners : List v2) : Option (List v2) :=
  gift_wrap_loop corners fuel [leftmost_corner corners] ⟨0, 1⟩

/-- rw_gjk.cpp `try_make_polygon`.  `r0` is the indeterminate initial value
of the uninitialised `shape.radius`; the radius fold starts from it.
`some none` = returned `false`; `some (some sh)` = returned `true` with
`*shape_out = sh`. -/
def try_make_polygon (fuel : Nat) (r0 : ℝ) (corners : List v2) :
    Option (Option PolyShape) :=
  if corners.length < 3 then some none
  else if contains_duplicates corners then some none
  else
    match get_ordered_convex_corners fuel corners with
    | none => none
    | some ordered =>
      if corners.length ≠ ordered.length then some none
      else some (some
        { pos := origin
          angle := 0
          radius := ordered.foldl (fun r c => if r < c.length then c.length else r) r0
          corners := ordered })

/-! ### Polygon construction, later variant (`is_convex` + nullable out) -/

/-- The collinearity pre-check of `is_convex`: three corners at pairwise
distinct positions whose normalised consecutive directions have dot product
exactly 1. -/
def has_inline_triple (corners : List v2) : Prop :=
  ∃ i j k, i < corners.length ∧ j < corners.length ∧ k < corners.length ∧
    j ≠ i ∧ k ≠ i ∧ k ≠ j ∧
    dot (corners.getD j 0 - corners.getD i 0).normalised_or_zero
        (corners.getD k 0 - corners.getD j 0).normalised_or_zero = 1

/-- Leftmost corner with the upper-on-tie rule of the later variant. -/
def leftmost_upper_corner (corners : List v2) : v2 :=
  corners.foldl (fun lm c => if c.x < lm.x ∨ (c.x = lm.x ∧ lm.y < c.y) then c else lm)
    (corners.headD 0)

/-- The candidate scan of the hull walk in `is_convex`: no nonnegativity
filter, strict `>` keeps the first maximum. -/
def hull_best (corners : List v2) (last sd : v2) : Option v2 :=
  (corners.foldl (fun acc c =>
    if c = last then acc
    else
      let cd := dot sd (c - last).normalised_or_zero
      match acc with
      | none => some (c, cd)
      | some (b, h) => if h < cd then some (c, cd) else some (b, h)) none).map Prod.fst

/-- The hull-walk `while (true)` loop of `is_convex`, with fuel. -/
def convex_hull_loop (corners : List v2) : Nat → List v2 → v2 → Option (List v2)
  | 0, _, _ => none
  | fuel + 1, hull, sd =>
    match hull_best corners (hull.getLastD 0) sd with
    | none => some hull
    | some best =>
      if best = hull.headD 0 then some hull
      else convex_hull_loop corners fuel (hull ++ [best])
        (best - hull.getLastD 0).normalised_or_zero

/-- `is_convex` (later variant): reject any exactly collinear triple, then
compare the gift-wrapped hull length with the input length. -/
def is_convex (fuel : Nat) (corners : List v2) : Option Bool :=
  if has_inline_triple corners then some false
  else (convex_hull_loop corners fuel [leftmost_upper_corner corners] ⟨0, 1⟩).map
    (fun hull => corners.length == hull.length)

/-- The later `try_make_polygon` with a nullable `shape_out`
(`shape_out_null = true` models passing `nullptr`).  When the pointer is
non-null the radius fold runs over the still-empty local `shape.corners`,
so the stored radius is just the indeterminate `r0`. -/
def try_make_polygon_nullable (fuel : Nat) (r0 : ℝ) (corners : List v2)
    (shape_out_null : Bool) : Option (Option PolyShape) :=
  if corners.length < 3 then some none
  else if contains_duplicates corners then some none
  else
    match is_convex fuel corners with
    | none => none
    | some false => some none
    | some true =>
      if shape_out_null then some none
      else some (some { pos := origin, angle := 0, radius := r0, corners := corners })

/-- A vertex of the Minkowski difference: world support corner of `A` minus
world support corner of `B`. -/
def MinkCorner (A B : Shape) (v : v2) : Prop :=
  ∃ ca ∈ A.corners, ∃ cb ∈ B.corners,
    v = (A.pos + ca.rotated A.angle) - (B.pos + cb.rotated B.angle)

/-! ### Origin-in-triangle certificates -/

/-- The origin is a nontrivial nonnegative combination of `a`, `b`, `c`:
a division-free statement of membership in the convex hull of the three
points. -/
def TriOrigin (a b c : v2) : Prop :=
  ∃ la lb lc : ℝ, 0 ≤ la ∧ 0 ≤ lb ∧ 0 ≤ lc ∧ 0 < la + lb + lc ∧
    la * a.x + lb * b.x + lc * c.x = 0 ∧ la * a.y + lb * b.y + lc * c.y = 0

/-! ### The GJK loop invariant -/

/-- State invariant at the top of each iteration of the GJK loop: the
simplex holds one or two pairwise-distinct vertices, and the search
direction is exactly what the previous iteration (or the initialisation)
computed for that simplex. -/
def GjkInv (simplex : List v2) (sd : v2) : Prop :=
  (∃ m, simplex = [m] ∧
      (sd = origin - m ∨ (sd = (origin - m).normalised_or_zero ∧ sd ≠ 0))) ∨
  (∃ a b, simplex = [a, b] ∧ a ≠ b ∧
      sd = normal_in_direction_or_0 (b - a) (origin - a) ∧ sd ≠ 0)

/-- What the GJK loop guarantees of a simplex it returns with the overlap
verdict. -/
def GjkGood (s : List v2) : Prop :=
  s.Pairwise (· ≠ ·) ∧ 1 ≤ s.length ∧ s.length ≤ 3 ∧
  ∀ a b c, s = [a, b, c] → TriOrigin a b c

/-- The EPA loop invariant: all polytope vertices are Minkowski corners and
three of them certify that the origin is inside. -/
def EpaInv (A B : Shape) (s : List v2) : Prop :=
  (∀ p ∈ s, MinkCorner A B p) ∧
  ∃ a b c, a ∈ s ∧ b ∈ s ∧ c ∈ s ∧ TriOrigin a b c

/-! ### Concrete evaluation infrastructure -/

/-- The 0.2-side square of the test-suite, corners ordered as the
constructor produces them. -/
def sq_corners : List v2 :=
  [⟨-(1/10), -(1/10)⟩, ⟨-(1/10), 1/10⟩, ⟨1/10, 1/10⟩, ⟨1/10, -(1/10)⟩]

/-- An axis-aligned test square at a given world position. -/
def square (p : v2) : Shape := { pos := p, angle := 0, corners := sq_corners }

def triA : Shape :=
  { pos := ⟨-(49999999/25000000), 120000001/100000000⟩, angle := 0,
    corners := [⟨3/5, 0⟩, ⟨-1, -1⟩, ⟨1, -(4/5)⟩] }

def triB : Shape :=
  { pos := ⟨0, 0⟩, angle := 0,
    corners := [⟨1/5, 1⟩, ⟨-1, 2/5⟩, ⟨2/5, 1/5⟩] }

/-- The fold step of `best_candidate`, named so the fold can be evaluated
one corner at a time. -/
def bc_step (last sd : v2) (acc : Option (v2 × ℝ)) (c : v2) : Option (v2 × ℝ) :=
  if c = last then acc
  else
    let cd := dot sd (c - last).normalised_or_zero
    match acc with
    | none => if 0 ≤ cd then some (c, cd) else acc
    | some (b, h) => if 0 ≤ cd ∧ h < cd then some (c, cd) else some (b, h)

/-- The C8 input: four corners of which ⟨0,0⟩, ⟨1,0⟩, ⟨2,0⟩ are collinear,
listed with ⟨1,0⟩ first. -/
def quad_corners : List v2 := [⟨1, 0⟩, ⟨0, 0⟩, ⟨2, 0⟩, ⟨1, 1⟩]

/-! ## Claim C9 -/

/-- The C9 input: a valid convex right-triangle corner list. -/
def elbow_corners : List v2 := [⟨0, 0⟩, ⟨0, 1⟩, ⟨1, 1⟩]

namespace v2

@[simp] theorem zero_x : (0 : v2).x = 0 := rfl

@[simp] theorem zero_y : (0 : v2).y = 0 := rfl

@[simp] theorem add_x (a b : v2) : (a + b).x = a.x + b.x := rfl

@[simp] theorem add_y (a b : v2) : (a + b).y = a.y + b.y := rfl

@[simp] theorem sub_x (a b : v2) : (a - b).x = a.x - b.x := rfl

@[simp] theorem sub_y (a b : v2) : (a - b).y = a.y - b.y := rfl

@[simp] theorem neg_x (a : v2) : (-a).x = -a.x := rfl

@[simp] theorem neg_y (a : v2) : (-a).y = -a.y := rfl

@[simp] theorem mk_sub (ax ay bx By : ℝ) :
    (⟨ax, ay⟩ - ⟨bx, By⟩ : v2) = ⟨ax - bx, ay - By⟩ := rfl

@[simp] theorem mk_add (ax ay bx By : ℝ) :
    (⟨ax, ay⟩ + ⟨bx, By⟩ : v2) = ⟨ax + bx, ay + By⟩ := rfl

theorem mk_eq_mk {ax ay bx By : ℝ} : (⟨ax, ay⟩ : v2) = ⟨bx, By⟩ ↔ ax = bx ∧ ay = By := by
  constructor
  · intro h; exact ⟨congrArg v2.x h, congrArg v2.y h⟩
  · rintro ⟨h1, h2⟩; rw [h1, h2]

theorem eq_zero_iff {a : v2} : a = 0 ↔ a.x = 0 ∧ a.y = 0 := by
  constructor
  · intro h; rw [h]; exact ⟨rfl, rfl⟩
  · rintro ⟨h1, h2⟩; ext <;> simp [h1, h2]

@[simp] theorem scale_x (a : v2) (r : ℝ) : (a.scale r).x = a.x * r := rfl

@[simp] theorem scale_y (a : v2) (r : ℝ) : (a.scale r).y = a.y * r := rfl

@[simp] theorem sdiv_x (a : v2) (r : ℝ) : (a.sdiv r).x = a.x / r := rfl

@[simp] theorem sdiv_y (a : v2) (r : ℝ) : (a.sdiv r).y = a.y / r := rfl

theorem normSq_nonneg (a : v2) : 0 ≤ a.normSq := by
  have := sq_nonneg a.x; have := sq_nonneg a.y; unfold normSq; linarith

theorem length_eq_sqrt_normSq (a : v2) : a.length = Real.sqrt a.normSq := rfl

theorem length_nonneg (a : v2) : 0 ≤ a.length := Real.sqrt_nonneg _

theorem normSq_eq_zero_iff {a : v2} : a.normSq = 0 ↔ a = 0 := by
  unfold normSq
  constructor
  · intro h
    have hx : a.x = 0 := by nlinarith [sq_nonneg a.x, sq_nonneg a.y]
    have hy : a.y = 0 := by nlinarith [sq_nonneg a.x, sq_nonneg a.y]
    exact eq_zero_iff.mpr ⟨hx, hy⟩
  · intro h; rw [h]; simp

theorem normSq_pos_of_ne_zero {a : v2} (h : a ≠ 0) : 0 < a.normSq := by
  rcases lt_or_eq_of_le (normSq_nonneg a) with h' | h'
  · exact h'
  · exact absurd (normSq_eq_zero_iff.mp h'.symm) h

theorem length_pos_of_ne_zero {a : v2} (h : a ≠ 0) : 0 < a.length :=
  Real.sqrt_pos.mpr (normSq_pos_of_ne_zero h)

theorem sq_length (a : v2) : a.length ^ 2 = a.normSq :=
  Real.sq_sqrt (normSq_nonneg a)

@[simp] theorem rotated_zero (a : v2) : a.rotated 0 = a := by
  unfold rotated; ext <;> simp

end v2

theorem dot_comm (a b : v2) : dot a b = dot b a := by unfold dot; ring

theorem TINY_NUMBER_pos : 0 < TINY_NUMBER := by norm_num [TINY_NUMBER]

theorem TINY_NUMBER_lt_one : TINY_NUMBER < 1 := by norm_num [TINY_NUMBER]

/-! ### Basic lemmas about the vector operations -/

theorem v2.normalised_eq_sdiv {a : v2} (h : a ≠ 0) :
    a.normalised_or_zero = a.sdiv a.length := by
  unfold v2.normalised_or_zero; rw [if_neg h]

theorem v2.normalised_or_zero_zero : (0 : v2).normalised_or_zero = 0 := by
  unfold v2.normalised_or_zero; rw [if_pos rfl]

theorem v2.normalised_ne_zero {a : v2} (h : a ≠ 0) : a.normalised_or_zero ≠ 0 := by
  rw [v2.normalised_eq_sdiv h]
  intro hc
  have hl : 0 < a.length := v2.length_pos_of_ne_zero h
  have hx : a.x / a.length = 0 := congrArg v2.x hc
  have hy : a.y / a.length = 0 := congrArg v2.y hc
  have hx' : a.x = 0 := by field_simp at hx; exact hx
  have hy' : a.y = 0 := by field_simp at hy; exact hy
  exact h (v2.eq_zero_iff.mpr ⟨hx', hy'⟩)

theorem v2.normSq_normalised {a : v2} (h : a ≠ 0) :
    a.normalised_or_zero.normSq = 1 := by
  rw [v2.normalised_eq_sdiv h]
  have hl : 0 < a.length := v2.length_pos_of_ne_zero h
  have hsq : a.length ^ 2 = a.normSq := v2.sq_length a
  unfold v2.normSq at hsq
  unfold v2.normSq v2.sdiv
  field_simp
  linarith [hsq]

theorem v2.length_normalised {a : v2} (h : a ≠ 0) :
    a.normalised_or_zero.length = 1 := by
  rw [v2.length_eq_sqrt_normSq, v2.normSq_normalised h, Real.sqrt_one]

theorem dot_sdiv_left (a : v2) (r : ℝ) (b : v2) :
    dot (a.sdiv r) b = dot a b / r := by
  unfold dot v2.sdiv; ring

theorem dot_scale_left (a : v2) (r : ℝ) (b : v2) :
    dot (a.scale r) b = dot a b * r := by
  unfold dot v2.scale; ring

theorem dot_normalised_left {a : v2} (h : a ≠ 0) (b : v2) :
    dot a.normalised_or_zero b = dot a b / a.length := by
  rw [v2.normalised_eq_sdiv h, dot_sdiv_left]

/-- A unit vector is its own normalisation. -/
theorem v2.normalised_of_normSq_one {a : v2} (h : a.normSq = 1) :
    a.normalised_or_zero = a := by
  have ha : a ≠ 0 := by
    intro hz; rw [hz] at h; simp [v2.normSq] at h
  have hl : a.length = 1 := by
    rw [v2.length_eq_sqrt_normSq, h, Real.sqrt_one]
  rw [v2.normalised_eq_sdiv ha, hl]
  unfold v2.sdiv; ext <;> simp

/-- Lagrange identity, 2D. -/
theorem lagrange (a b : v2) :
    dot a b ^ 2 + cross a b ^ 2 = a.normSq * b.normSq := by
  unfold dot cross v2.normSq; ring

/-- Cauchy-Schwarz in the plane. -/
theorem dot_le_length_mul (a b : v2) : dot a b ≤ a.length * b.length := by
  have h1 : dot a b ^ 2 ≤ a.normSq * b.normSq := by
    have := lagrange a b; nlinarith [sq_nonneg (cross a b)]
  have h2 : Real.sqrt (dot a b ^ 2) ≤ Real.sqrt (a.normSq * b.normSq) :=
    Real.sqrt_le_sqrt h1
  rw [Real.sqrt_sq_eq_abs, Real.sqrt_mul (v2.normSq_nonneg a)] at h2
  rw [v2.length_eq_sqrt_normSq, v2.length_eq_sqrt_normSq]
  calc dot a b ≤ |dot a b| := le_abs_self _
    _ ≤ _ := h2

theorem dot_sub_right (a b c : v2) : dot a (b - c) = dot a b - dot a c := by
  unfold dot; simp; ring

theorem dot_origin_sub (a b : v2) : dot a (origin - b) = -dot a b := by
  unfold dot origin; simp; ring

/-! ### `normal_in_direction_or_0` characterisation -/

theorem dot_right_normal_eq_cross_div (v d : v2) :
    dot v.right_normal_or_zero d = cross d v / v.length := by
  unfold v2.right_normal_or_zero
  by_cases h : v = 0
  · rw [h]
    have : (⟨(0:v2).y, -(0:v2).x⟩ : v2) = 0 := by ext <;> simp
    rw [this, v2.normalised_or_zero_zero]
    unfold dot cross v2.length; simp
  · have hv : (⟨v.y, -v.x⟩ : v2) ≠ 0 := by
      intro hc
      rw [v2.mk_eq_mk] at hc
      simp only [v2.zero_x, v2.zero_y] at hc
      exact h (v2.eq_zero_iff.mpr ⟨by linarith [hc.2], hc.1⟩)
    rw [dot_normalised_left hv]
    have hlen : (⟨v.y, -v.x⟩ : v2).length = v.length := by
      unfold v2.length; congr 1; push_cast; ring
    rw [hlen]
    unfold dot cross; simp; ring_nf

theorem right_normal_length_eq (v : v2) :
    (⟨v.y, -v.x⟩ : v2).length = v.length := by
  unfold v2.length; congr 1; push_cast; ring

/-- The zero result of `normal_in_direction_or_0` happens exactly on a zero
cross product. -/
theorem nid_eq_zero_iff (v d : v2) :
    normal_in_direction_or_0 v d = 0 ↔ cross d v = 0 := by
  unfold normal_in_direction_or_0
  simp only
  by_cases h : v = 0
  · subst h
    have hc : cross d (0 : v2) = 0 := by unfold cross; simp
    have hrn : (0 : v2).right_normal_or_zero = 0 := by
      unfold v2.right_normal_or_zero
      have : (⟨(0:v2).y, -(0:v2).x⟩ : v2) = 0 := by ext <;> simp
      rw [this, v2.normalised_or_zero_zero]
    rw [hrn]
    have hdz : dot (0 : v2) d = 0 := by unfold dot; simp
    rw [hdz]
    simp [hc]
  · have hd : dot v.right_normal_or_zero d = cross d v / v.length :=
      dot_right_normal_eq_cross_div v d
    have hlpos : 0 < v.length := v2.length_pos_of_ne_zero h
    have hrn0 : v.right_normal_or_zero ≠ 0 := by
      unfold v2.right_normal_or_zero
      apply v2.normalised_ne_zero
      intro hc
      rw [v2.mk_eq_mk] at hc
      simp only [v2.zero_x, v2.zero_y] at hc
      exact h (v2.eq_zero_iff.mpr ⟨by linarith [hc.2], hc.1⟩)
    rcases lt_trichotomy (cross d v) 0 with hlt | heq | hgt
    · have h1 : ¬ (0 < dot v.right_normal_or_zero d) := by
        rw [hd]; push_neg
        apply le_of_lt
        exact div_neg_of_neg_of_pos hlt hlpos
      have h2 : dot v.right_normal_or_zero d < 0 := by
        rw [hd]; exact div_neg_of_neg_of_pos hlt hlpos
      rw [if_neg h1, if_pos h2]
      constructor
      · intro hc
        exfalso
        have hx := congrArg v2.x hc
        have hy := congrArg v2.y hc
        simp [v2.scale] at hx hy
        exact hrn0 (v2.eq_zero_iff.mpr ⟨hx, hy⟩)
      · intro hc; exact absurd hc (ne_of_lt hlt)
    · have h1 : ¬ (0 < dot v.right_normal_or_zero d) := by
        rw [hd, heq]; simp
      have h2 : ¬ (dot v.right_normal_or_zero d < 0) := by
        rw [hd, heq]; simp
      rw [if_neg h1, if_neg h2]
      simp [heq]
    · have h1 : 0 < dot v.right_normal_or_zero d := by
        rw [hd]; exact div_pos hgt hlpos
      rw [if_pos h1]
      constructor
      · intro hc; exact absurd hc hrn0
      · intro hc; exact absurd hc (ne_of_gt hgt)

/-- Positive-cross branch of `normal_in_direction_or_0`. -/
theorem nid_pos_eq {v d : v2} (h : 0 < cross d v) :
    normal_in_direction_or_0 v d = (⟨v.y, -v.x⟩ : v2).sdiv v.length := by
  have hv : v ≠ 0 := by
    intro hz; rw [hz] at h
    unfold cross at h; simp at h
  unfold normal_in_direction_or_0
  simp only
  have hd : dot v.right_normal_or_zero d = cross d v / v.length :=
    dot_right_normal_eq_cross_div v d
  have hlpos : 0 < v.length := v2.length_pos_of_ne_zero hv
  have h1 : 0 < dot v.right_normal_or_zero d := by
    rw [hd]; exact div_pos h hlpos
  rw [if_pos h1]
  unfold v2.right_normal_or_zero
  have hv' : (⟨v.y, -v.x⟩ : v2) ≠ 0 := by
    intro hc
    rw [v2.mk_eq_mk] at hc
    simp only [v2.zero_x, v2.zero_y] at hc
    exact hv (v2.eq_zero_iff.mpr ⟨by linarith [hc.2], hc.1⟩)
  rw [v2.normalised_eq_sdiv hv', right_normal_length_eq]

/-- Negative-cross branch of `normal_in_direction_or_0`. -/
theorem nid_neg_eq {v d : v2} (h : cross d v < 0) :
    normal_in_direction_or_0 v d = ((⟨v.y, -v.x⟩ : v2).sdiv v.length).scale (-1) := by
  have hv : v ≠ 0 := by
    intro hz; rw [hz] at h
    unfold cross at h; simp at h
  unfold normal_in_direction_or_0
  simp only
  have hd : dot v.right_normal_or_zero d = cross d v / v.length :=
    dot_right_normal_eq_cross_div v d
  have hlpos : 0 < v.length := v2.length_pos_of_ne_zero hv
  have h1 : ¬ (0 < dot v.right_normal_or_zero d) := by
    rw [hd]; push_neg; exact le_of_lt (div_neg_of_neg_of_pos h hlpos)
  have h2 : dot v.right_normal_or_zero d < 0 := by
    rw [hd]; exact div_neg_of_neg_of_pos h hlpos
  rw [if_neg h1, if_pos h2]
  unfold v2.right_normal_or_zero
  have hv' : (⟨v.y, -v.x⟩ : v2) ≠ 0 := by
    intro hc
    rw [v2.mk_eq_mk] at hc
    simp only [v2.zero_x, v2.zero_y] at hc
    exact hv (v2.eq_zero_iff.mpr ⟨by linarith [hc.2], hc.1⟩)
  rw [v2.normalised_eq_sdiv hv', right_normal_length_eq]

/-- A nonzero `normal_in_direction_or_0` result is a unit vector orthogonal
to `v` with a positive dot product against `direction`. -/
theorem nid_spec {v d : v2} (h : normal_in_direction_or_0 v d ≠ 0) :
    (normal_in_direction_or_0 v d).normSq = 1 ∧
    dot (normal_in_direction_or_0 v d) v = 0 ∧
    0 < dot (normal_in_direction_or_0 v d) d := by
  have hcr : cross d v ≠ 0 := fun hc => h ((nid_eq_zero_iff v d).mpr hc)
  have hv : v ≠ 0 := by
    intro hz; rw [hz] at hcr
    apply hcr; unfold cross; simp
  have hlpos : 0 < v.length := v2.length_pos_of_ne_zero hv
  have hsq : v.length ^ 2 = v.normSq := v2.sq_length v
  rcases lt_or_gt_of_ne hcr with hlt | hgt
  · rw [nid_neg_eq hlt]
    refine ⟨?_, ?_, ?_⟩
    · unfold v2.normSq at hsq
      unfold v2.normSq v2.sdiv v2.scale
      simp only
      field_simp
      nlinarith [hsq]
    · unfold dot v2.sdiv v2.scale; simp only; field_simp; ring
    · unfold dot v2.sdiv v2.scale
      simp only
      have hval : (v.y / v.length * -1) * d.x + (-v.x / v.length * -1) * d.y
          = -(cross d v) / v.length := by unfold cross; field_simp; ring
      rw [hval]
      apply div_pos _ hlpos
      linarith
  · rw [nid_pos_eq hgt]
    refine ⟨?_, ?_, ?_⟩
    · unfold v2.normSq at hsq
      unfold v2.normSq v2.sdiv
      simp only
      field_simp
      nlinarith [hsq]
    · unfold dot v2.sdiv; simp only; field_simp; ring
    · unfold dot v2.sdiv
      simp only
      have hval : (v.y / v.length) * d.x + (-v.x / v.length) * d.y
          = cross d v / v.length := by unfold cross; field_simp; ring
      rw [hval]
      exact div_pos hgt hlpos

/-! ### Support function lemmas -/

theorem support_step_none (ang : ℝ) (direction : v2) (c : v2) :
    support_step ang direction none c = some (c.rotated ang) := rfl

theorem support_step_some (ang : ℝ) (direction : v2) (b c : v2) :
    support_step ang direction (some b) c =
      if dot b direction < dot (c.rotated ang) direction then some (c.rotated ang)
      else some b := rfl

theorem support_fold_some (ang : ℝ) (direction : v2) :
    ∀ (l : List v2) (b0 : v2), ∃ b, l.foldl (support_step ang direction) (some b0) = some b := by
  intro l
  induction l with
  | nil => intro b0; exact ⟨b0, rfl⟩
  | cons hd tl ih =>
    intro b0
    rw [List.foldl_cons, support_step_some]
    by_cases h : dot b0 direction < dot (hd.rotated ang) direction
    · rw [if_pos h]; exact ih _
    · rw [if_neg h]; exact ih _

theorem support_fold_ge (ang : ℝ) (direction : v2) :
    ∀ (l : List v2) (b0 bfin : v2),
      l.foldl (support_step ang direction) (some b0) = some bfin →
      dot b0 direction ≤ dot bfin direction := by
  intro l
  induction l with
  | nil =>
    intro b0 bfin h
    simp only [List.foldl_nil, Option.some.injEq] at h
    rw [h]
  | cons hd tl ih =>
    intro b0 bfin h
    rw [List.foldl_cons, support_step_some] at h
    by_cases hlt : dot b0 direction < dot (hd.rotated ang) direction
    · rw [if_pos hlt] at h
      have := ih (hd.rotated ang) bfin h
      linarith
    · rw [if_neg hlt] at h
      exact ih b0 bfin h

theorem support_fold_mem (ang : ℝ) (direction : v2) :
    ∀ (l : List v2) (b0 bfin : v2),
      l.foldl (support_step ang direction) (some b0) = some bfin →
      bfin = b0 ∨ ∃ c ∈ l, bfin = c.rotated ang := by
  intro l
  induction l with
  | nil =>
    intro b0 bfin h
    simp only [List.foldl_nil, Option.some.injEq] at h
    exact Or.inl h.symm
  | cons hd tl ih =>
    intro b0 bfin h
    rw [List.foldl_cons, support_step_some] at h
    by_cases hlt : dot b0 direction < dot (hd.rotated ang) direction
    · rw [if_pos hlt] at h
      rcases ih (hd.rotated ang) bfin h with heq | ⟨c, hc, hcr⟩
      · exact Or.inr ⟨hd, List.mem_cons_self _ _, heq⟩
      · exact Or.inr ⟨c, List.mem_cons_of_mem _ hc, hcr⟩
    · rw [if_neg hlt] at h
      rcases ih b0 bfin h with heq | ⟨c, hc, hcr⟩
      · exact Or.inl heq
      · exact Or.inr ⟨c, List.mem_cons_of_mem _ hc, hcr⟩

theorem support_fold_max (ang : ℝ) (direction : v2) :
    ∀ (l : List v2) (b0 bfin : v2),
      l.foldl (support_step ang direction) (some b0) = some bfin →
      ∀ c ∈ l, dot (c.rotated ang) direction ≤ dot bfin direction := by
  intro l
  induction l with
  | nil => intro b0 bfin _ c hc; exact absurd hc (List.not_mem_nil c)
  | cons hd tl ih =>
    intro b0 bfin h c hc
    rw [List.foldl_cons, support_step_some] at h
    rcases List.mem_cons.mp hc with hchd | hctl
    · subst hchd
      by_cases hlt : dot b0 direction < dot (c.rotated ang) direction
      · rw [if_pos hlt] at h
        exact support_fold_ge ang direction tl _ _ h
      · rw [if_neg hlt] at h
        push_neg at hlt
        have := support_fold_ge ang direction tl _ _ h
        linarith
    · by_cases hlt : dot b0 direction < dot (hd.rotated ang) direction
      · rw [if_pos hlt] at h
        exact ih _ bfin h c hctl
      · rw [if_neg hlt] at h
        exact ih _ bfin h c hctl

/-- The support corner of a nonempty shape is one of the rotated corners,
and it maximises the dot product with the query direction. -/
theorem get_edge_spec (s : Shape) (direction : v2) (hne : s.corners ≠ []) :
    (∃ c ∈ s.corners, get_edge_of_rotated_shape s direction = c.rotated s.angle) ∧
    (∀ c ∈ s.corners,
      dot (c.rotated s.angle) direction ≤
        dot (get_edge_of_rotated_shape s direction) direction) := by
  unfold get_edge_of_rotated_shape best_rotated_corner
  rcases hcs : s.corners with _ | ⟨c0, rest⟩
  · exact absurd hcs hne
  · rw [List.foldl_cons, support_step_none]
    rcases support_fold_some s.angle direction rest (c0.rotated s.angle) with ⟨b, hb⟩
    rw [hb, Option.getD_some]
    constructor
    · rcases support_fold_mem s.angle direction rest _ b hb with heq | ⟨c, hc, hcr⟩
      · exact ⟨c0, List.mem_cons_self _ _, heq⟩
      · exact ⟨c, List.mem_cons_of_mem _ hc, hcr⟩
    · intro c hc
      rcases List.mem_cons.mp hc with hchd | hctl
      · subst hchd
        exact support_fold_ge s.angle direction rest _ b hb
      · exact support_fold_max s.angle direction rest _ b hb c hctl

theorem mink_mem (A B : Shape) (direction : v2)
    (hA : A.corners ≠ []) (hB : B.corners ≠ []) :
    MinkCorner A B (get_minkowski_diffed_edge A B direction) := by
  rcases (get_edge_spec A direction hA).1 with ⟨ca, hca, hea⟩
  rcases (get_edge_spec B (-direction) hB).1 with ⟨cb, hcb, heb⟩
  exact ⟨ca, hca, cb, hcb, by unfold get_minkowski_diffed_edge; rw [hea, heb]⟩

theorem mink_max (A B : Shape) (direction : v2)
    (hA : A.corners ≠ []) (hB : B.corners ≠ []) :
    ∀ v, MinkCorner A B v →
      dot v direction ≤ dot (get_minkowski_diffed_edge A B direction) direction := by
  rintro v ⟨ca, hca, cb, hcb, hv⟩
  have ha := (get_edge_spec A direction hA).2 ca hca
  have hb := (get_edge_spec B (-direction) hB).2 cb hcb
  subst hv
  unfold get_minkowski_diffed_edge
  unfold dot at *
  simp only [v2.add_x, v2.add_y, v2.sub_x, v2.sub_y, v2.neg_x, v2.neg_y] at *
  nlinarith [ha, hb]

theorem dot_rot90_sdiv (v u : v2) (r : ℝ) :
    dot ((⟨v.y, -v.x⟩ : v2).sdiv r) u = cross u v / r := by
  unfold dot cross v2.sdiv
  simp only
  ring

/-- The three failed outward side tests of `improve_simplex`, together with
the facts the loop guarantees about the entering 2-simplex `[a, b]` and the
freshly pushed support `w`, certify that the origin lies in the convex hull
of the final simplex `[a, b, w]`. -/
theorem tri_of_improve (a b w sd : v2)
    (hsd : sd = normal_in_direction_or_0 (b - a) (origin - a)) (hsd0 : sd ≠ 0)
    (hw : TINY_NUMBER < dot w sd)
    (h1 : ¬ 0 < dot (normal_in_direction_or_0 (b - a) (a - w)) (origin - a))
    (h2 : ¬ 0 < dot (normal_in_direction_or_0 (w - b) (b - a)) (origin - b))
    (h3 : ¬ 0 < dot (normal_in_direction_or_0 (a - w) (w - b)) (origin - w)) :
    TriOrigin a b w := by
  have hspec := nid_spec (v := b - a) (d := origin - a) (by rw [← hsd]; exact hsd0)
  rw [← hsd] at hspec
  obtain ⟨hunit, hperp, hpos⟩ := hspec
  -- basic sign facts about the entering state
  have hdota : dot sd a < 0 := by
    have := hpos
    rw [dot_origin_sub] at this
    linarith
  have hdotw : TINY_NUMBER < dot sd w := by rw [dot_comm]; exact hw
  have hwa : 0 < dot sd (w - a) := by
    rw [dot_sub_right]
    have := TINY_NUMBER_pos
    linarith
  -- the branch of `normal_in_direction_or_0` that produced `sd`
  have hcr0 : cross (origin - a) (b - a) ≠ 0 := by
    intro hc
    exact hsd0 (by rw [hsd]; exact (nid_eq_zero_iff _ _).mpr hc)
  have hba : (b - a) ≠ 0 := by
    intro hz
    apply hcr0
    rw [hz]; unfold cross; simp
  have hlen : 0 < (b - a).length := v2.length_pos_of_ne_zero hba
  -- signed area of the triangle
  set D : ℝ := cross b w + cross w a + cross a b with hD
  -- cross identities used throughout
  have key1 : cross (a - w) (b - a) = D := by unfold cross at *; rw [hD]; simp only [v2.sub_x, v2.sub_y]; ring
  have key2 : cross (b - a) (w - b) = D := by unfold cross at *; rw [hD]; simp only [v2.sub_x, v2.sub_y]; ring
  have key3 : cross (w - b) (a - w) = D := by unfold cross at *; rw [hD]; simp only [v2.sub_x, v2.sub_y]; ring
  have keyg : cross (origin - a) (b - a) = -(cross a b) := by
    unfold cross origin; simp; ring
  have keya : cross (origin - b) (w - b) = -(cross b w) := by
    unfold cross origin; simp; ring
  have keyb : cross (origin - w) (a - w) = -(cross w a) := by
    unfold cross origin; simp; ring
  -- sign of D, via the direction from the segment toward w
  have hDsign : (0 < cross (origin - a) (b - a) → D < 0) ∧
                (cross (origin - a) (b - a) < 0 → 0 < D) := by
    constructor
    · intro hcr
      have hsd_eq := nid_pos_eq hcr
      rw [← hsd] at hsd_eq
      have : dot sd (w - a) = cross (w - a) (b - a) / (b - a).length := by
        rw [hsd_eq, dot_rot90_sdiv]
      rw [this] at hwa
      have hwacr : 0 < cross (w - a) (b - a) := by
        by_contra hcon
        push_neg at hcon
        have : cross (w - a) (b - a) / (b - a).length ≤ 0 :=
          div_nonpos_of_nonpos_of_nonneg hcon (le_of_lt hlen)
        linarith
      have : cross (w - a) (b - a) = -D := by unfold cross at *; rw [hD]; simp only [v2.sub_x, v2.sub_y]; ring
      linarith [hwacr, this.symm.le, this.le]
    · intro hcr
      have hsd_eq := nid_neg_eq hcr
      rw [← hsd] at hsd_eq
      have : dot sd (w - a) = -(cross (w - a) (b - a) / (b - a).length) := by
        rw [hsd_eq, dot_scale_left, dot_rot90_sdiv]; ring
      rw [this] at hwa
      have hwacr : cross (w - a) (b - a) < 0 := by
        by_contra hcon
        push_neg at hcon
        have : 0 ≤ cross (w - a) (b - a) / (b - a).length :=
          div_nonneg hcon (le_of_lt hlen)
        linarith
      have : cross (w - a) (b - a) = -D := by unfold cross at *; rw [hD]; simp only [v2.sub_x, v2.sub_y]; ring
      linarith [hwacr]
  -- the barycentric combination identities (pure algebra)
  have hcombx : cross b w * a.x + cross w a * b.x + cross a b * w.x = 0 := by
    unfold cross; ring
  have hcomby : cross b w * a.y + cross w a * b.y + cross a b * w.y = 0 := by
    unfold cross; ring
  rcases lt_or_gt_of_ne hcr0 with hneg | hposc
  · -- `cross (origin - a) (b - a) < 0`, so `D > 0` and the three normals are
    -- the negated right normals
    have hDpos : 0 < D := hDsign.2 hneg
    have hg : 0 ≤ cross a b := by
      have hbr : cross (a - w) (b - a) = D := key1
      have hn1 := nid_pos_eq (v := b - a) (d := a - w) (by rw [hbr]; exact hDpos)
      rw [hn1, dot_rot90_sdiv, keyg] at h1
      push_neg at h1
      by_contra hcon
      push_neg at hcon
      have : 0 < -(cross a b) / (b - a).length := div_pos (by linarith) hlen
      linarith
    have ha : 0 ≤ cross b w := by
      have hn2 := nid_pos_eq (v := w - b) (d := b - a) (by rw [key2]; exact hDpos)
      have hwb : (w - b) ≠ 0 := by
        intro hz
        have : cross (b - a) (w - b) = 0 := by rw [hz]; unfold cross; simp
        rw [key2] at this; linarith
      rw [hn2, dot_rot90_sdiv, keya] at h2
      push_neg at h2
      by_contra hcon
      push_neg at hcon
      have hwlen : 0 < (w - b).length := v2.length_pos_of_ne_zero hwb
      have : 0 < -(cross b w) / (w - b).length := div_pos (by linarith) hwlen
      linarith
    have hb2 : 0 ≤ cross w a := by
      have hn3 := nid_pos_eq (v := a - w) (d := w - b) (by rw [key3]; exact hDpos)
      have haw : (a - w) ≠ 0 := by
        intro hz
        have : cross (w - b) (a - w) = 0 := by rw [hz]; unfold cross; simp
        rw [key3] at this; linarith
      rw [hn3, dot_rot90_sdiv, keyb] at h3
      push_neg at h3
      by_contra hcon
      push_neg at hcon
      have hawlen : 0 < (a - w).length := v2.length_pos_of_ne_zero haw
      have : 0 < -(cross w a) / (a - w).length := div_pos (by linarith) hawlen
      linarith
    exact ⟨cross b w, cross w a, cross a b, ha, hb2, hg, by rw [← hD] at *; linarith,
      hcombx, hcomby⟩
  · -- `cross (origin - a) (b - a) > 0`, so `D < 0`
    have hDneg : D < 0 := hDsign.1 hposc
    have hg : cross a b ≤ 0 := by
      have hn1 := nid_neg_eq (v := b - a) (d := a - w) (by rw [key1]; exact hDneg)
      rw [hn1, dot_scale_left, dot_rot90_sdiv, keyg,
        show -cross a b / (b - a).length * -1 = cross a b / (b - a).length from by ring] at h1
      push_neg at h1
      by_contra hcon
      push_neg at hcon
      have : 0 < cross a b / (b - a).length := div_pos hcon hlen
      linarith
    have ha : cross b w ≤ 0 := by
      have hwb : (w - b) ≠ 0 := by
        intro hz
        have : cross (b - a) (w - b) = 0 := by rw [hz]; unfold cross; simp
        rw [key2] at this; linarith
      have hn2 := nid_neg_eq (v := w - b) (d := b - a) (by rw [key2]; exact hDneg)
      rw [hn2, dot_scale_left, dot_rot90_sdiv, keya,
        show -cross b w / (w - b).length * -1 = cross b w / (w - b).length from by ring] at h2
      push_neg at h2
      by_contra hcon
      push_neg at hcon
      have hwlen : 0 < (w - b).length := v2.length_pos_of_ne_zero hwb
      have : 0 < cross b w / (w - b).length := div_pos hcon hwlen
      linarith
    have hb2 : cross w a ≤ 0 := by
      have haw : (a - w) ≠ 0 := by
        intro hz
        have : cross (w - b) (a - w) = 0 := by rw [hz]; unfold cross; simp
        rw [key3] at this; linarith
      have hn3 := nid_neg_eq (v := a - w) (d := w - b) (by rw [key3]; exact hDneg)
      rw [hn3, dot_scale_left, dot_rot90_sdiv, keyb,
        show -cross w a / (a - w).length * -1 = cross w a / (a - w).length from by ring] at h3
      push_neg at h3
      by_contra hcon
      push_neg at hcon
      have hawlen : 0 < (a - w).length := v2.length_pos_of_ne_zero haw
      have : 0 < cross w a / (a - w).length := div_pos hcon hawlen
      linarith
    refine ⟨-(cross b w), -(cross w a), -(cross a b), by linarith, by linarith, by linarith,
      ?_, by linarith [hcombx], by linarith [hcomby]⟩
    rw [← hD] at *
    linarith

theorem dot_neg_self (m : v2) : dot m (origin - m) = -m.normSq := by
  unfold dot v2.normSq origin; simp; ring

theorem dot_neg_self_rev (m : v2) : dot (origin - m) m = -m.normSq := by
  unfold dot v2.normSq origin; simp; ring

/-- Under the invariant, every simplex vertex is on the non-positive side of
the search direction. -/
theorem GjkInv.dot_nonpos {simplex : List v2} {sd : v2} (h : GjkInv simplex sd) :
    ∀ p ∈ simplex, dot p sd ≤ 0 := by
  rcases h with ⟨m, hs, hsd⟩ | ⟨a, b, hs, hab, hsd, hsd0⟩
  · intro p hp
    rw [hs] at hp
    rcases List.mem_singleton.mp hp with rfl
    rcases hsd with rfl | ⟨rfl, hne⟩
    · rw [dot_neg_self]
      linarith [v2.normSq_nonneg p]
    · have hne' : origin - p ≠ 0 := by
        intro hz
        apply hne
        rw [hz, v2.normalised_or_zero_zero]
      rw [dot_comm, dot_normalised_left hne', dot_neg_self_rev]
      apply div_nonpos_of_nonpos_of_nonneg _ (v2.length_nonneg _)
      linarith [v2.normSq_nonneg p]
  · intro p hp
    have hspec := nid_spec (v := b - a) (d := origin - a) (by rw [← hsd]; exact hsd0)
    rw [← hsd] at hspec
    obtain ⟨hunit, hperp, hpos⟩ := hspec
    have hda : dot a sd < 0 := by
      rw [dot_origin_sub] at hpos
      rw [dot_comm]; linarith
    rw [hs] at hp
    rcases List.mem_cons.mp hp with rfl | hp'
    · linarith
    · rcases List.mem_singleton.mp hp' with rfl
      have : dot p sd = dot a sd + dot sd (p - a) := by
        unfold dot; simp; ring
      rw [this, hperp]
      linarith

/-- For a unit search direction, a new support within `TINY_NUMBER` of a
vertex on the non-positive side fails the progress test. -/
theorem exit_of_unit (sd p w : v2) (hdp : dot p sd ≤ 0) (hunit : sd.normSq = 1)
    (hclose : w.distance p ≤ TINY_NUMBER) : dot w sd ≤ TINY_NUMBER := by
  have hdist : w.distance p = (w - p).length := by
    unfold v2.distance v2.length; simp
  have hsplit : dot w sd = dot p sd + dot (w - p) sd := by
    unfold dot; simp; ring
  have hcs : dot (w - p) sd ≤ (w - p).length * sd.length := dot_le_length_mul _ _
  have hlone : sd.length = 1 := by
    rw [v2.length_eq_sqrt_normSq, hunit, Real.sqrt_one]
  rw [hsplit]
  have h2 : dot (w - p) sd ≤ TINY_NUMBER := by
    calc dot (w - p) sd ≤ (w - p).length * sd.length := hcs
      _ = w.distance p := by rw [hdist, hlone, mul_one]
      _ ≤ TINY_NUMBER := hclose
  linarith

/-- Under the loop invariant, a new support within `TINY_NUMBER` of an
existing simplex vertex fails the `dot <= TINY_NUMBER` progress test. -/
theorem GjkInv.near_vertex_exit {simplex : List v2} {sd : v2} (h : GjkInv simplex sd)
    {p w : v2} (hp : p ∈ simplex) (hclose : w.distance p ≤ TINY_NUMBER) :
    dot w sd ≤ TINY_NUMBER := by
  have hnonpos := h.dot_nonpos p hp
  rcases h with ⟨m, hs, hsd⟩ | ⟨a, b, hs, hab, hsd, hsd0⟩
  · rw [hs] at hp
    rcases List.mem_singleton.mp hp with rfl
    rcases hsd with rfl | ⟨rfl, hne⟩
    · -- initial, unnormalised direction `origin - p`
      have hdist : w.distance p = (w - p).length := by
        unfold v2.distance v2.length; simp
      have hsplit : dot w (origin - p) = dot p (origin - p) + dot (w - p) (origin - p) := by
        unfold dot; simp; ring
      have hcs : dot (w - p) (origin - p) ≤ (w - p).length * (origin - p).length :=
        dot_le_length_mul _ _
      have hlen : (origin - p).length = p.length := by
        unfold v2.length origin; simp
      have hdotp : dot p (origin - p) = -p.normSq := dot_neg_self p
      have hnormsq : p.length ^ 2 = p.normSq := v2.sq_length p
      have hlp : 0 ≤ p.length := v2.length_nonneg p
      have hT : 0 < TINY_NUMBER := TINY_NUMBER_pos
      have hT1 : TINY_NUMBER < 1 := TINY_NUMBER_lt_one
      rw [hsplit, hdotp]
      have h2 : dot (w - p) (origin - p) ≤ TINY_NUMBER * p.length := by
        calc dot (w - p) (origin - p) ≤ (w - p).length * (origin - p).length := hcs
          _ = w.distance p * p.length := by rw [hdist, hlen]
          _ ≤ TINY_NUMBER * p.length := by
              apply mul_le_mul_of_nonneg_right hclose hlp
      nlinarith [sq_nonneg (p.length - TINY_NUMBER), hnormsq]
    · have hne' : origin - p ≠ 0 := by
        intro hz
        apply hne
        rw [hz, v2.normalised_or_zero_zero]
      exact exit_of_unit _ p w hnonpos (v2.normSq_normalised hne') hclose
  · have hunit : (normal_in_direction_or_0 (b - a) (origin - a)).normSq = 1 :=
      (nid_spec (v := b - a) (d := origin - a) (by rw [← hsd]; exact hsd0)).1
    rw [hsd]
    rw [hsd] at hnonpos
    exact exit_of_unit _ p w hnonpos hunit hclose

/-- Full case analysis of `improve_2_simplex`. -/
theorem improve_2_cases (a b : v2) :
    (improve_2_simplex a b = (true, [a, b], (0 : v2)) ∧
       normal_in_direction_or_0 (b - a) (origin - a) = 0 ∧ origin_is_between_points a b) ∨
    (improve_2_simplex a b =
        (false, [a, b], normal_in_direction_or_0 (b - a) (origin - a)) ∧
       origin_is_between_points a b ∧
       normal_in_direction_or_0 (b - a) (origin - a) ≠ 0) ∨
    (improve_2_simplex a b = (true, [a], (0 : v2)) ∧ (origin - a).normalised_or_zero = 0) ∨
    (improve_2_simplex a b = (false, [a], (origin - a).normalised_or_zero) ∧
       (origin - a).normalised_or_zero ≠ 0) ∨
    (improve_2_simplex a b = (true, [b], (0 : v2)) ∧ (origin - b).normalised_or_zero = 0) ∨
    (improve_2_simplex a b = (false, [b], (origin - b).normalised_or_zero) ∧
       (origin - b).normalised_or_zero ≠ 0) := by
  unfold improve_2_simplex
  by_cases hbet : origin_is_between_points a b
  · rw [if_pos hbet]
    by_cases hz : normal_in_direction_or_0 (b - a) (origin - a) = 0
    · left
      constructor
      · simp [hz]
      · exact ⟨hz, hbet⟩
    · right; left
      constructor
      · simp only [if_neg hz]
      · exact ⟨hbet, hz⟩
  · rw [if_neg hbet]
    by_cases hc : dot (b - a) (origin - a) ≤ 0
    · rw [if_pos hc]
      by_cases hz : (origin - a).normalised_or_zero = 0
      · right; right; left
        exact ⟨by simp [hz], hz⟩
      · right; right; right; left
        exact ⟨by simp only [if_neg hz], hz⟩
    · rw [if_neg hc]
      by_cases hz : (origin - b).normalised_or_zero = 0
      · right; right; right; right; left
        exact ⟨by simp [hz], hz⟩
      · right; right; right; right; right
        exact ⟨by simp only [if_neg hz], hz⟩

/-- Case analysis of `improve_simplex` on a 3-simplex: either one of the
outward tests fires and the call reduces to `improve_2_simplex` on an edge,
or all three fail and the simplex is declared to contain the origin. -/
theorem improve_simplex_three (a b c : v2) (sd : v2) :
    (improve_simplex [a, b, c] sd = improve_2_simplex a b ∧
       0 < dot (normal_in_direction_or_0 (b - a) (a - c)) (origin - a)) ∨
    (improve_simplex [a, b, c] sd = improve_2_simplex b c ∧
       0 < dot (normal_in_direction_or_0 (c - b) (b - a)) (origin - b)) ∨
    (improve_simplex [a, b, c] sd = improve_2_simplex c a ∧
       0 < dot (normal_in_direction_or_0 (a - c) (c - b)) (origin - c)) ∨
    (improve_simplex [a, b, c] sd = (true, [a, b, c], sd) ∧
       ¬ 0 < dot (normal_in_direction_or_0 (b - a) (a - c)) (origin - a) ∧
       ¬ 0 < dot (normal_in_direction_or_0 (c - b) (b - a)) (origin - b) ∧
       ¬ 0 < dot (normal_in_direction_or_0 (a - c) (c - b)) (origin - c)) := by
  unfold improve_simplex
  by_cases h1 : 0 < dot (normal_in_direction_or_0 (b - a) (a - c)) (origin - a)
  · left; exact ⟨by simp only [if_pos h1], h1⟩
  · by_cases h2 : 0 < dot (normal_in_direction_or_0 (c - b) (b - a)) (origin - b)
    · right; left; exact ⟨by simp only [if_neg h1, if_pos h2], h2⟩
    · by_cases h3 : 0 < dot (normal_in_direction_or_0 (a - c) (c - b)) (origin - c)
      · right; right; left; exact ⟨by simp only [if_neg h1, if_neg h2, if_pos h3], h3⟩
      · right; right; right
        exact ⟨by simp only [if_neg h1, if_neg h2, if_neg h3], h1, h2, h3⟩

theorem improve_simplex_two (a b : v2) (sd : v2) :
    improve_simplex [a, b] sd = improve_2_simplex a b := rfl

/-- Unfolding of one iteration of the GJK loop. -/
theorem gjk_loop_succ (A B : Shape) (fuel : Nat) (simplex : List v2) (sd : v2) :
    gjk_loop A B (fuel + 1) simplex sd =
      if dot (get_minkowski_diffed_edge A B sd) sd ≤ TINY_NUMBER then some none
      else if (improve_simplex (simplex ++ [get_minkowski_diffed_edge A B sd]) sd).1 then
        some (some (improve_simplex (simplex ++ [get_minkowski_diffed_edge A B sd]) sd).2.1)
      else
        gjk_loop A B fuel (improve_simplex (simplex ++ [get_minkowski_diffed_edge A B sd]) sd).2.1
          (improve_simplex (simplex ++ [get_minkowski_diffed_edge A B sd]) sd).2.2 := rfl

theorem gjkGood_one (m : v2) : GjkGood [m] := by
  refine ⟨by simp, by simp, by simp, ?_⟩
  intro a b c heq
  exact absurd (congrArg List.length heq) (by simp)

theorem gjkGood_two {m w : v2} (h : m ≠ w) : GjkGood [m, w] := by
  refine ⟨by simp [h], by simp, by simp, ?_⟩
  intro a b c heq
  exact absurd (congrArg List.length heq) (by simp)

/-- `improve_2_simplex` on distinct vertices: a `true` verdict leaves a good
simplex, a `false` verdict re-establishes the loop invariant. -/
theorem improve_2_step (x y : v2) (hxy : x ≠ y) :
    ((improve_2_simplex x y).1 = true → GjkGood (improve_2_simplex x y).2.1) ∧
    ((improve_2_simplex x y).1 = false →
        GjkInv (improve_2_simplex x y).2.1 (improve_2_simplex x y).2.2) := by
  rcases improve_2_cases x y with
    ⟨heq, _, _⟩ | ⟨heq, _, hz⟩ | ⟨heq, _⟩ | ⟨heq, hz⟩ | ⟨heq, _⟩ | ⟨heq, hz⟩ <;> rw [heq]
  · exact ⟨fun _ => gjkGood_two hxy, fun h => by simp at h⟩
  · refine ⟨fun h => by simp at h, fun _ => Or.inr ⟨x, y, rfl, hxy, rfl, hz⟩⟩
  · exact ⟨fun _ => gjkGood_one x, fun h => by simp at h⟩
  · exact ⟨fun h => by simp at h, fun _ => Or.inl ⟨x, rfl, Or.inr ⟨rfl, hz⟩⟩⟩
  · exact ⟨fun _ => gjkGood_one y, fun h => by simp at h⟩
  · exact ⟨fun h => by simp at h, fun _ => Or.inl ⟨y, rfl, Or.inr ⟨rfl, hz⟩⟩⟩

/-- One full improvement step from an invariant state with a strictly
progressing new support. -/
theorem improve_step (simplex : List v2) (sd w : v2) (hInv : GjkInv simplex sd)
    (hw : TINY_NUMBER < dot w sd) :
    ((improve_simplex (simplex ++ [w]) sd).1 = true →
        GjkGood (improve_simplex (simplex ++ [w]) sd).2.1) ∧
    ((improve_simplex (simplex ++ [w]) sd).1 = false →
        GjkInv (improve_simplex (simplex ++ [w]) sd).2.1
          (improve_simplex (simplex ++ [w]) sd).2.2) := by
  have hT := TINY_NUMBER_pos
  have hnotmem : ∀ p ∈ simplex, p ≠ w := by
    intro p hp heq
    have := hInv.dot_nonpos p hp
    rw [heq] at this
    linarith
  rcases hInv with ⟨m, hs, hsd⟩ | ⟨a, b, hs, hab, hsd, hsd0⟩
  · -- simplex = [m]; the push gives [m, w]
    have hmw : m ≠ w := hnotmem m (by rw [hs]; exact List.mem_singleton_self m)
    rw [hs]
    have : ([m] ++ [w] : List v2) = [m, w] := rfl
    rw [this, improve_simplex_two]
    exact improve_2_step m w hmw
  · -- simplex = [a, b]; the push gives [a, b, w]
    have haw : a ≠ w := hnotmem a (by rw [hs]; simp)
    have hbw : b ≠ w := hnotmem b (by rw [hs]; simp)
    rw [hs]
    have hcat : ([a, b] ++ [w] : List v2) = [a, b, w] := rfl
    rw [hcat]
    rcases improve_simplex_three a b w sd with
      ⟨heq, _⟩ | ⟨heq, _⟩ | ⟨heq, _⟩ | ⟨heq, h1, h2, h3⟩ <;> rw [heq]
    · exact improve_2_step a b hab
    · exact improve_2_step b w hbw
    · exact improve_2_step w a (Ne.symm haw)
    · refine ⟨fun _ => ?_, fun h => by simp at h⟩
      refine ⟨by simp [hab, haw, hbw], by simp, by simp, ?_⟩
      intro a' b' c' heq'
      have ha' : a' = a := by
        have := congrArg (fun l => l.headD 0) heq'; simpa using this.symm
      have hb' : b' = b := by
        have := congrArg (fun l => l.getD 1 0) heq'; simpa using this.symm
      have hc' : c' = w := by
        have := congrArg (fun l => l.getD 2 0) heq'; simpa using this.symm
      subst ha'; subst hb'; subst hc'
      exact tri_of_improve a' b' c' sd hsd hsd0 hw h1 h2 h3

/-- The GJK loop, started in an invariant state, only ever returns good
simplexes with the overlap verdict. -/
theorem gjk_loop_good (A B : Shape) :
    ∀ (fuel : Nat) (simplex : List v2) (sd : v2), GjkInv simplex sd →
      ∀ s', gjk_loop A B fuel simplex sd = some (some s') → GjkGood s' := by
  intro fuel
  induction fuel with
  | zero => intro simplex sd _ s' h; simp [gjk_loop] at h
  | succ n ih =>
    intro simplex sd hInv s' h
    rw [gjk_loop_succ] at h
    by_cases hdot : dot (get_minkowski_diffed_edge A B sd) sd ≤ TINY_NUMBER
    · rw [if_pos hdot] at h
      simp at h
    · rw [if_neg hdot] at h
      push_neg at hdot
      have hstep := improve_step simplex sd (get_minkowski_diffed_edge A B sd) hInv hdot
      by_cases hflag :
          (improve_simplex (simplex ++ [get_minkowski_diffed_edge A B sd]) sd).1 = true
      · rw [if_pos hflag] at h
        have : s' = (improve_simplex (simplex ++ [get_minkowski_diffed_edge A B sd]) sd).2.1 := by
          have := (Option.some.injEq _ _).mp h
          exact ((Option.some.injEq _ _).mp this).symm
        rw [this]
        exact hstep.1 hflag
      · rw [if_neg (by simpa using hflag)] at h
        have hflag' :
            (improve_simplex (simplex ++ [get_minkowski_diffed_edge A B sd]) sd).1 = false := by
          simpa using hflag
        exact ih _ _ (hstep.2 hflag') s' h

theorem improve_2_subset (x y : v2) :
    ∀ p ∈ (improve_2_simplex x y).2.1, p = x ∨ p = y := by
  rcases improve_2_cases x y with
    ⟨heq, _, _⟩ | ⟨heq, _, _⟩ | ⟨heq, _⟩ | ⟨heq, _⟩ | ⟨heq, _⟩ | ⟨heq, _⟩ <;>
      rw [heq] <;> intro p hp <;> simp at hp
  · exact hp
  · exact hp
  · exact Or.inl hp
  · exact Or.inl hp
  · exact Or.inr hp
  · exact Or.inr hp

theorem improve_subset (s : List v2) (sd : v2) :
    ∀ p ∈ (improve_simplex s sd).2.1, p ∈ s := by
  match s with
  | [a, b, c] =>
    rcases improve_simplex_three a b c sd with
      ⟨heq, _⟩ | ⟨heq, _⟩ | ⟨heq, _⟩ | ⟨heq, _, _, _⟩ <;> rw [heq] <;> intro p hp
    · rcases improve_2_subset a b p hp with rfl | rfl <;> simp
    · rcases improve_2_subset b c p hp with rfl | rfl <;> simp
    · rcases improve_2_subset c a p hp with rfl | rfl <;> simp
    · exact hp
  | [a, b] =>
    rw [improve_simplex_two]
    intro p hp
    rcases improve_2_subset a b p hp with rfl | rfl <;> simp
  | [] => intro p hp; exact hp
  | [a] => intro p hp; exact hp
  | a :: b :: c :: d :: rest => intro p hp; exact hp

/-- Every vertex of a simplex returned by the GJK loop is a Minkowski
difference corner. -/
theorem gjk_loop_mem (A B : Shape) (hA : A.corners ≠ []) (hB : B.corners ≠ []) :
    ∀ (fuel : Nat) (simplex : List v2) (sd : v2),
      (∀ p ∈ simplex, MinkCorner A B p) →
      ∀ s', gjk_loop A B fuel simplex sd = some (some s') →
        ∀ p ∈ s', MinkCorner A B p := by
  intro fuel
  induction fuel with
  | zero => intro simplex sd _ s' h; simp [gjk_loop] at h
  | succ n ih =>
    intro simplex sd hmem s' h
    rw [gjk_loop_succ] at h
    by_cases hdot : dot (get_minkowski_diffed_edge A B sd) sd ≤ TINY_NUMBER
    · rw [if_pos hdot] at h; simp at h
    · rw [if_neg hdot] at h
      have hmem' : ∀ p ∈ simplex ++ [get_minkowski_diffed_edge A B sd], MinkCorner A B p := by
        intro p hp
        rcases List.mem_append.mp hp with h' | h'
        · exact hmem p h'
        · rcases List.mem_singleton.mp h' with rfl
          exact mink_mem A B sd hA hB
      by_cases hflag :
          (improve_simplex (simplex ++ [get_minkowski_diffed_edge A B sd]) sd).1 = true
      · rw [if_pos hflag] at h
        have hs' : s' = (improve_simplex (simplex ++ [get_minkowski_diffed_edge A B sd]) sd).2.1 := by
          have := (Option.some.injEq _ _).mp h
          exact ((Option.some.injEq _ _).mp this).symm
        rw [hs']
        intro p hp
        exact hmem' p (improve_subset _ _ p hp)
      · rw [if_neg (by simpa using hflag)] at h
        refine ih _ _ ?_ s' h
        intro p hp
        exact hmem' p (improve_subset _ _ p hp)

/-- Facts about the simplex handed to EPA when `shapes_are_overlapping`
reports an overlap. -/
theorem shapes_are_overlapping_sound (fuel : Nat) (A B : Shape) (s : List v2)
    (h : shapes_are_overlapping fuel A B = some (some s)) : GjkGood s := by
  unfold shapes_are_overlapping at h
  apply gjk_loop_good A B fuel _ _ _ s h
  exact Or.inl ⟨_, rfl, Or.inl rfl⟩

theorem shapes_are_overlapping_mem (fuel : Nat) (A B : Shape) (s : List v2)
    (hA : A.corners ≠ []) (hB : B.corners ≠ [])
    (h : shapes_are_overlapping fuel A B = some (some s)) :
    ∀ p ∈ s, MinkCorner A B p := by
  unfold shapes_are_overlapping at h
  apply gjk_loop_mem A B hA hB fuel _ _ _ s h
  intro p hp
  rcases List.mem_singleton.mp hp with rfl
  exact mink_mem A B _ hA hB

/-! ### EPA lemmas -/

theorem v2.scale_ne_zero {a : v2} {r : ℝ} (ha : a ≠ 0) (hr : r ≠ 0) : a.scale r ≠ 0 := by
  intro hc
  have hx : a.x * r = 0 := congrArg v2.x hc
  have hy : a.y * r = 0 := congrArg v2.y hc
  rcases mul_eq_zero.mp hx with hx' | hr'
  · rcases mul_eq_zero.mp hy with hy' | hr'
    · exact ha (v2.eq_zero_iff.mpr ⟨hx', hy'⟩)
    · exact hr hr'
  · exact hr hr'

/-- The degenerate nudge is never the zero vector. -/
theorem nudge_ne_zero (A B : Shape) : get_amount_for_origin_on_edge A B ≠ 0 := by
  unfold get_amount_for_origin_on_edge
  simp only
  set pd := B.pos - A.pos with hpd
  have hT := TINY_NUMBER_pos
  by_cases h : pd = 0
  · rw [if_pos h]
    apply v2.scale_ne_zero _ (ne_of_gt hT)
    apply v2.normalised_ne_zero
    intro hc
    have := congrArg v2.x hc
    simp at this
    linarith
  · rw [if_neg h]
    exact v2.scale_ne_zero (v2.normalised_ne_zero h) (ne_of_gt hT)

theorem epa_scan_succ_none (s : List v2) (k i : Nat) :
    epa_scan s (k + 1) i none =
      if outer_normal_at s i = 0 then none
      else epa_scan s k (i + 1) (some (i, dot (outer_normal_at s i) (s.getD i 0))) := rfl

theorem epa_scan_succ_some (s : List v2) (k i : Nat) (bi : Nat) (bd : ℝ) :
    epa_scan s (k + 1) i (some (bi, bd)) =
      if outer_normal_at s i = 0 then none
      else epa_scan s k (i + 1)
        (if dot (outer_normal_at s i) (s.getD i 0) < bd then
          some (i, dot (outer_normal_at s i) (s.getD i 0))
        else some (bi, bd)) := rfl

/-- When the closest-edge scan succeeds, the returned edge index is in range
and its outward normal is nonzero. -/
theorem epa_scan_sound (s : List v2) :
    ∀ (k i : Nat) (best : Option (Nat × ℝ)),
      (∀ bi bd, best = some (bi, bd) → outer_normal_at s bi ≠ 0 ∧ bi < s.length) →
      (best = none → 1 ≤ k) →
      i + k ≤ s.length →
      ∀ j, epa_scan s k i best = some j → outer_normal_at s j ≠ 0 ∧ j < s.length := by
  intro k
  induction k with
  | zero =>
    intro i best hbest hnone _ j h
    cases best with
    | none => exact absurd (hnone rfl) (by norm_num)
    | some p =>
      rcases p with ⟨bi, bd⟩
      simp only [epa_scan, Option.map_some, Option.getD_some, Option.some.injEq] at h
      rw [← h]
      exact hbest bi bd rfl
  | succ n ih =>
    intro i best hbest _ hrange j h
    have hi : i < s.length := by omega
    cases best with
    | none =>
      rw [epa_scan_succ_none] at h
      by_cases hz : outer_normal_at s i = 0
      · rw [if_pos hz] at h; simp at h
      · rw [if_neg hz] at h
        refine ih (i + 1) _ ?_ (by intro hc; simp at hc) (by omega) j h
        intro bi bd hb
        simp only [Option.some.injEq, Prod.mk.injEq] at hb
        rw [← hb.1]
        exact ⟨hz, hi⟩
    | some p =>
      rcases p with ⟨bi, bd⟩
      rw [epa_scan_succ_some] at h
      by_cases hz : outer_normal_at s i = 0
      · rw [if_pos hz] at h; simp at h
      · rw [if_neg hz] at h
        by_cases hlt : dot (outer_normal_at s i) (s.getD i 0) < bd
        · rw [if_pos hlt] at h
          refine ih (i + 1) _ ?_ (by intro hc; simp at hc) (by omega) j h
          intro bi' bd' hb
          simp only [Option.some.injEq, Prod.mk.injEq] at hb
          rw [← hb.1]
          exact ⟨hz, hi⟩
        · rw [if_neg hlt] at h
          refine ih (i + 1) _ ?_ (by intro hc; simp at hc) (by omega) j h
          intro bi' bd' hb
          simp only [Option.some.injEq, Prod.mk.injEq] at hb
          rw [← hb.1]
          exact hbest bi bd rfl

theorem v2.sub_self (a : v2) : a - a = 0 := by ext <;> simp

/-- On a 2-vertex polytope the very first edge has a zero outward normal
(the "third" vertex wraps around to the first), so the scan aborts. -/
theorem epa_scan_len2 {p q : v2} : epa_scan [p, q] 2 0 none = none := by
  have hz : outer_normal_at [p, q] 0 = 0 := by
    unfold outer_normal_at
    simp only [List.length_cons, List.length_singleton]
    norm_num
    apply (nid_eq_zero_iff _ _).mpr
    rw [v2.sub_self]
    unfold cross; simp
  rw [epa_scan, if_pos hz]

/-- One unfolding of the EPA loop. -/
theorem epa_loop_eq (A B : Shape) (fuel : Nat) (s : List v2) :
    epa_loop A B (fuel + 1) s =
      match epa_scan s s.length 0 none with
      | none => some (get_amount_for_origin_on_edge A B)
      | some i =>
        if (get_minkowski_diffed_edge A B (outer_normal_at s i)).distance (s.getD i 0)
              < TINY_NUMBER ∨
           (get_minkowski_diffed_edge A B (outer_normal_at s i)).distance
              (s.getD ((i + 1) % s.length) 0) < TINY_NUMBER then
          some ((outer_normal_at s i).normalised_or_zero.scale
            (dot (outer_normal_at s i) (s.getD i 0) + TINY_NUMBER))
        else
          epa_loop A B fuel
            (s.insertIdx ((i + 1) % s.length)
              (get_minkowski_diffed_edge A B (outer_normal_at s i))) := rfl

theorem outer_normal_at_eq (s : List v2) (i : Nat) :
    outer_normal_at s i =
      normal_in_direction_or_0
        (s.getD ((i + 1) % s.length) 0 - s.getD (i % s.length) 0)
        (s.getD (i % s.length) 0 - s.getD ((i + 2) % s.length) 0) := rfl

/-- A nonzero outward normal is a unit vector orthogonal to its edge. -/
theorem outer_normal_spec {s : List v2} {i : Nat} (h : outer_normal_at s i ≠ 0) :
    (outer_normal_at s i).normSq = 1 ∧
    dot (outer_normal_at s i)
      (s.getD ((i + 1) % s.length) 0 - s.getD (i % s.length) 0) = 0 := by
  rw [outer_normal_at_eq] at h ⊢
  exact ⟨(nid_spec h).1, (nid_spec h).2.1⟩

/-- Strict upper bound for the support value over the polytope vertices at a
convergent EPA edge. -/
theorem converged_dot_lt (s : List v2) (i : Nat) (hi : i < s.length)
    (hnz : outer_normal_at s i ≠ 0) (w : v2)
    (hconv : w.distance (s.getD i 0) < TINY_NUMBER ∨
             w.distance (s.getD ((i + 1) % s.length) 0) < TINY_NUMBER) :
    dot w (outer_normal_at s i) <
      dot (outer_normal_at s i) (s.getD i 0) + TINY_NUMBER := by
  obtain ⟨hunit, hperp⟩ := outer_normal_spec hnz
  set nrm := outer_normal_at s i with hnrm
  have hlone : nrm.length = 1 := by
    rw [v2.length_eq_sqrt_normSq, hunit, Real.sqrt_one]
  have hn : s.length ≠ 0 := by omega
  have hmod : i % s.length = i := Nat.mod_eq_of_lt hi
  -- the two endpoints have the same signed distance along the normal
  have hsame : dot nrm (s.getD ((i + 1) % s.length) 0) = dot nrm (s.getD i 0) := by
    have := hperp
    rw [dot_sub_right, hmod] at this
    linarith
  rcases hconv with hc | hc
  · have hsplit : dot w nrm = dot (s.getD i 0) nrm + dot (w - s.getD i 0) nrm := by
      unfold dot; simp; ring
    have hcs := dot_le_length_mul (w - s.getD i 0) nrm
    have hdist : w.distance (s.getD i 0) = (w - s.getD i 0).length := by
      unfold v2.distance v2.length; simp
    rw [hsplit, dot_comm (a := s.getD i 0)]
    have : dot (w - s.getD i 0) nrm < TINY_NUMBER := by
      calc dot (w - s.getD i 0) nrm ≤ (w - s.getD i 0).length * nrm.length := hcs
        _ = w.distance (s.getD i 0) := by rw [hdist, hlone, mul_one]
        _ < TINY_NUMBER := hc
    linarith
  · have hsplit : dot w nrm =
        dot (s.getD ((i + 1) % s.length) 0) nrm + dot (w - s.getD ((i + 1) % s.length) 0) nrm := by
      unfold dot; simp; ring
    have hcs := dot_le_length_mul (w - s.getD ((i + 1) % s.length) 0) nrm
    have hdist : w.distance (s.getD ((i + 1) % s.length) 0) =
        (w - s.getD ((i + 1) % s.length) 0).length := by
      unfold v2.distance v2.length; simp
    rw [hsplit, dot_comm (a := s.getD ((i + 1) % s.length) 0), hsame]
    have : dot (w - s.getD ((i + 1) % s.length) 0) nrm < TINY_NUMBER := by
      calc dot (w - s.getD ((i + 1) % s.length) 0) nrm
          ≤ (w - s.getD ((i + 1) % s.length) 0).length * nrm.length := hcs
        _ = w.distance (s.getD ((i + 1) % s.length) 0) := by rw [hdist, hlone, mul_one]
        _ < TINY_NUMBER := hc
    linarith

/-- Whatever the EPA loop returns under its invariant is a nonzero vector. -/
theorem epa_loop_ne_zero (A B : Shape) (hA : A.corners ≠ []) (hB : B.corners ≠ []) :
    ∀ (fuel : Nat) (s : List v2), EpaInv A B s →
      ∀ v, epa_loop A B fuel s = some v → v ≠ 0 := by
  intro fuel
  induction fuel with
  | zero => intro s _ v h; simp [epa_loop] at h
  | succ n ih =>
    intro s hInv v h
    obtain ⟨hmem, a, b, c, hab, hbb, hcb, htri⟩ := hInv
    have hlen1 : 1 ≤ s.length := by
      rcases s with _ | _
      · exact absurd hab (List.not_mem_nil a)
      · simp
    rw [epa_loop_eq] at h
    rcases hscan : epa_scan s s.length 0 none with _ | i
    · rw [hscan] at h
      simp only [Option.some.injEq] at h
      rw [← h]
      exact nudge_ne_zero A B
    · rw [hscan] at h
      obtain ⟨hnz, hi⟩ := epa_scan_sound s s.length 0 none
        (by intro bi bd hc; simp at hc) (fun _ => hlen1) (by omega) i hscan
      simp only at h
      set nrm := outer_normal_at s i with hnrm
      set w := get_minkowski_diffed_edge A B nrm with hw
      by_cases hconv : w.distance (s.getD i 0) < TINY_NUMBER ∨
          w.distance (s.getD ((i + 1) % s.length) 0) < TINY_NUMBER
      · rw [if_pos hconv] at h
        simp only [Option.some.injEq] at h
        have hunit : nrm.normSq = 1 := by
          rw [hnrm]
          exact (outer_normal_spec (by rw [← hnrm]; exact hnz)).1
        rw [← h, v2.normalised_of_normSq_one hunit]
        -- the signed distance plus the margin is strictly positive
        set d : ℝ := dot nrm (s.getD i 0) with hd
        have hwlt : dot w nrm < d + TINY_NUMBER :=
          converged_dot_lt s i hi hnz w hconv
        have hmax : ∀ p, MinkCorner A B p → dot p nrm ≤ dot w nrm := by
          intro p hp
          rw [hw]
          exact mink_max A B nrm hA hB p hp
        have hda : dot a nrm < d + TINY_NUMBER := lt_of_le_of_lt (hmax a (hmem a hab)) hwlt
        have hdb : dot b nrm < d + TINY_NUMBER := lt_of_le_of_lt (hmax b (hmem b hbb)) hwlt
        have hdc : dot c nrm < d + TINY_NUMBER := lt_of_le_of_lt (hmax c (hmem c hcb)) hwlt
        obtain ⟨la, lb, lc, hla, hlb, hlc, hsum, hcx, hcy⟩ := htri
        have hzero : la * dot a nrm + lb * dot b nrm + lc * dot c nrm = 0 := by
          unfold dot
          have : la * (a.x * nrm.x + a.y * nrm.y) + lb * (b.x * nrm.x + b.y * nrm.y) +
              lc * (c.x * nrm.x + c.y * nrm.y) =
              nrm.x * (la * a.x + lb * b.x + lc * c.x) +
              nrm.y * (la * a.y + lb * b.y + lc * c.y) := by ring
          rw [this, hcx, hcy]
          ring
        have hpos : 0 < d + TINY_NUMBER := by
          by_contra hle
          push_neg at hle
          have hna : dot a nrm < 0 := lt_of_lt_of_le hda hle
          have hnb : dot b nrm < 0 := lt_of_lt_of_le hdb hle
          have hnc : dot c nrm < 0 := lt_of_lt_of_le hdc hle
          have t1 : la * dot a nrm ≤ 0 := mul_nonpos_of_nonneg_of_nonpos hla (le_of_lt hna)
          have t2 : lb * dot b nrm ≤ 0 := mul_nonpos_of_nonneg_of_nonpos hlb (le_of_lt hnb)
          have t3 : lc * dot c nrm ≤ 0 := mul_nonpos_of_nonneg_of_nonpos hlc (le_of_lt hnc)
          have e1 : la * dot a nrm = 0 := by linarith
          have e2 : lb * dot b nrm = 0 := by linarith
          have e3 : lc * dot c nrm = 0 := by linarith
          have za : la = 0 := by
            rcases mul_eq_zero.mp e1 with h' | h'
            · exact h'
            · linarith
          have zb : lb = 0 := by
            rcases mul_eq_zero.mp e2 with h' | h'
            · exact h'
            · linarith
          have zc : lc = 0 := by
            rcases mul_eq_zero.mp e3 with h' | h'
            · exact h'
            · linarith
          rw [za, zb, zc] at hsum
          linarith
        exact v2.scale_ne_zero hnz (ne_of_gt hpos)
      · rw [if_neg hconv] at h
        refine ih _ ⟨?_, a, b, c, ?_, ?_, ?_, htri⟩ v h
        all_goals
          have hidx : (i + 1) % s.length ≤ s.length :=
            le_of_lt (Nat.mod_lt _ (by omega))
        · intro p hp
          rcases (List.mem_insertIdx hidx).mp hp with rfl | hp'
          · rw [hw]; exact mink_mem A B nrm hA hB
          · exact hmem p hp'
        · exact (List.mem_insertIdx hidx).mpr (Or.inr hab)
        · exact (List.mem_insertIdx hidx).mpr (Or.inr hbb)
        · exact (List.mem_insertIdx hidx).mpr (Or.inr hcb)

/-- `get_overlap_amount` returns exactly `(0,0)` on a no-overlap verdict. -/
theorem get_overlap_amount_no_overlap (fuel : Nat) (A B : Shape)
    (h : shapes_are_overlapping fuel A B = some none) :
    get_overlap_amount fuel A B = some 0 := by
  unfold get_overlap_amount
  rw [h]

/-- On an overlap verdict, `get_overlap_amount` never returns the zero
vector (shared core of the penetration-vector claims). -/
theorem overlap_amount_ne_zero_aux (fuel : Nat) (A B : Shape) (s : List v2) (v : v2)
    (hA : A.corners ≠ []) (hB : B.corners ≠ [])
    (hover : shapes_are_overlapping fuel A B = some (some s))
    (hv : get_overlap_amount fuel A B = some v) : v ≠ 0 := by
  unfold get_overlap_amount at hv
  rw [hover] at hv
  dsimp only at hv
  obtain ⟨hpair, hlen1, hlen3, htri⟩ := shapes_are_overlapping_sound fuel A B s hover
  have hmem := shapes_are_overlapping_mem fuel A B s hA hB hover
  by_cases hlen : s.length < 2
  · rw [if_pos hlen] at hv
    have : v = get_amount_for_origin_on_edge A B := by
      have := (Option.some.injEq _ _).mp hv
      exact this.symm
    rw [this]
    exact nudge_ne_zero A B
  · rw [if_neg hlen] at hv
    push_neg at hlen
    interval_cases hcase : s.length
    · -- length 2: the first scan aborts on the wrapped-around zero normal
      rcases s with _ | ⟨p, _ | ⟨q, _ | _⟩⟩ <;> simp_all
      rcases fuel with _ | n
      · simp [epa_loop] at hv
      · rw [epa_loop_eq] at hv
        have h2 : ([p, q] : List v2).length = 2 := by simp
        rw [h2, epa_scan_len2] at hv
        simp only [Option.some.injEq] at hv
        rw [← hv]
        exact nudge_ne_zero A B
    · -- length 3: the certified EPA invariant applies
      rcases s with _ | ⟨a, _ | ⟨b, _ | ⟨c, _ | _⟩⟩⟩ <;> simp_all
      refine epa_loop_ne_zero A B hA hB fuel [a, b, c]
        ⟨?_, a, b, c, by simp, by simp, by simp, htri⟩ v hv
      intro p hp
      rcases List.mem_cons.mp hp with rfl | hp'
      · exact hmem.1
      · rcases List.mem_cons.mp hp' with rfl | hp''
        · exact hmem.2.1
        · rcases List.mem_singleton.mp hp'' with rfl
          exact hmem.2.2

theorem support_step_zero_none (d c : v2) : support_step 0 d none c = some c := by
  rw [support_step_none, v2.rotated_zero]

theorem support_step_zero_some (d b c : v2) :
    support_step 0 d (some b) c = if dot b d < dot c d then some c else some b := by
  rw [support_step_some, v2.rotated_zero]

theorem sq_sup_up (pos : v2) (d : v2) (hx : d.x = 0) (hy : 0 < d.y) :
    get_edge_of_rotated_shape (square pos) d = ⟨-(1/10), 1/10⟩ := by
  have c1 : dot (⟨-(1/10), -(1/10)⟩ : v2) d < dot (⟨-(1/10), 1/10⟩ : v2) d := by
    simp only [dot, hx]; nlinarith
  have c2 : ¬ dot (⟨-(1/10), 1/10⟩ : v2) d < dot (⟨1/10, 1/10⟩ : v2) d := by
    simp only [dot, hx]; push_neg; nlinarith
  have c3 : ¬ dot (⟨-(1/10), 1/10⟩ : v2) d < dot (⟨1/10, -(1/10)⟩ : v2) d := by
    simp only [dot, hx]; push_neg; nlinarith
  unfold square get_edge_of_rotated_shape best_rotated_corner sq_corners
  rw [List.foldl_cons, support_step_zero_none,
    List.foldl_cons, support_step_zero_some, if_pos c1,
    List.foldl_cons, support_step_zero_some, if_neg c2,
    List.foldl_cons, support_step_zero_some, if_neg c3,
    List.foldl_nil, Option.getD_some]

theorem sq_sup_down (pos : v2) (d : v2) (hx : d.x = 0) (hy : d.y < 0) :
    get_edge_of_rotated_shape (square pos) d = ⟨-(1/10), -(1/10)⟩ := by
  have c1 : ¬ dot (⟨-(1/10), -(1/10)⟩ : v2) d < dot (⟨-(1/10), 1/10⟩ : v2) d := by
    simp only [dot, hx]; push_neg; nlinarith
  have c2 : ¬ dot (⟨-(1/10), -(1/10)⟩ : v2) d < dot (⟨1/10, 1/10⟩ : v2) d := by
    simp only [dot, hx]; push_neg; nlinarith
  have c3 : ¬ dot (⟨-(1/10), -(1/10)⟩ : v2) d < dot (⟨1/10, -(1/10)⟩ : v2) d := by
    simp only [dot, hx]; push_neg; nlinarith
  unfold square get_edge_of_rotated_shape best_rotated_corner sq_corners
  rw [List.foldl_cons, support_step_zero_none,
    List.foldl_cons, support_step_zero_some, if_neg c1,
    List.foldl_cons, support_step_zero_some, if_neg c2,
    List.foldl_cons, support_step_zero_some, if_neg c3,
    List.foldl_nil, Option.getD_some]

/-- Minkowski support of two test squares in an upward direction. -/
theorem sq_mink_up (pa pb : v2) (d : v2) (hx : d.x = 0) (hy : 0 < d.y) :
    get_minkowski_diffed_edge (square pa) (square pb) d
      = ⟨pa.x - pb.x, pa.y - pb.y + 1/5⟩ := by
  unfold get_minkowski_diffed_edge
  rw [sq_sup_up pa d hx hy, sq_sup_down pb (-d) (by simp [hx]) (by simp; linarith)]
  show (pa + ⟨-(1/10), 1/10⟩) - (pb + ⟨-(1/10), -(1/10)⟩) = _
  ext <;> simp <;> ring

/-- Minkowski support of two test squares in a downward direction. -/
theorem sq_mink_down (pa pb : v2) (d : v2) (hx : d.x = 0) (hy : d.y < 0) :
    get_minkowski_diffed_edge (square pa) (square pb) d
      = ⟨pa.x - pb.x, pa.y - pb.y - 1/5⟩ := by
  unfold get_minkowski_diffed_edge
  rw [sq_sup_down pa d hx hy, sq_sup_up pb (-d) (by simp [hx]) (by simp; linarith)]
  show (pa + ⟨-(1/10), -(1/10)⟩) - (pb + ⟨-(1/10), 1/10⟩) = _
  ext <;> simp <;> ring

theorem improve_2_eval_online (a b : v2) (hbet : origin_is_between_points a b)
    (hz : normal_in_direction_or_0 (b - a) (origin - a) = 0) :
    improve_2_simplex a b = (true, [a, b], 0) := by
  unfold improve_2_simplex
  rw [if_pos hbet]
  simp [hz]

/-- A GJK run that finds the origin on the very first simplex edge. -/
theorem gjk_one_shot (A B : Shape) (m0 w : v2) (n : Nat)
    (hm0 : get_minkowski_diffed_edge A B ⟨0, 1⟩ = m0)
    (hw : get_minkowski_diffed_edge A B (origin - m0) = w)
    (hdot : TINY_NUMBER < dot w (origin - m0))
    (hbet : origin_is_between_points m0 w)
    (hz : normal_in_direction_or_0 (w - m0) (origin - m0) = 0) :
    shapes_are_overlapping (n + 1) A B = some (some [m0, w]) := by
  unfold shapes_are_overlapping
  rw [hm0, gjk_loop_succ, hw, if_neg (not_le.mpr hdot)]
  have hcat : ([m0] ++ [w] : List v2) = [m0, w] := rfl
  rw [hcat, improve_simplex_two, improve_2_eval_online m0 w hbet hz]
  simp

/-- A GJK run that fails the progress test on the first iteration. -/
theorem gjk_one_shot_false (A B : Shape) (m0 : v2) (n : Nat)
    (hm0 : get_minkowski_diffed_edge A B ⟨0, 1⟩ = m0)
    (hdot : dot (get_minkowski_diffed_edge A B (origin - m0)) (origin - m0) ≤ TINY_NUMBER) :
    shapes_are_overlapping (n + 1) A B = some none := by
  unfold shapes_are_overlapping
  rw [hm0, gjk_loop_succ, if_pos hdot]

/-- With a 2-vertex final simplex the whole query degenerates to the nudge. -/
theorem amount_two_simplex (A B : Shape) (a b : v2) (n : Nat)
    (hover : shapes_are_overlapping (n + 1) A B = some (some [a, b])) :
    get_overlap_amount (n + 1) A B = some (get_amount_for_origin_on_edge A B) := by
  unfold get_overlap_amount
  rw [hover]
  dsimp only
  rw [if_neg (by simp), epa_loop_eq,
    show ([a, b] : List v2).length = 2 from rfl, epa_scan_len2]

theorem normalised_down (t : ℝ) (ht : 0 < t) :
    (⟨0, -t⟩ : v2).normalised_or_zero = ⟨0, -1⟩ := by
  have hne : (⟨0, -t⟩ : v2) ≠ 0 := by
    intro hc
    have := congrArg v2.y hc
    simp at this
    linarith
  rw [v2.normalised_eq_sdiv hne]
  have hlen : (⟨0, -t⟩ : v2).length = t := by
    unfold v2.length
    simp
    rw [Real.sqrt_sq ht.le]
  rw [hlen]
  unfold v2.sdiv
  ext <;> simp <;> field_simp

/-- The nudge for a shape pair whose position difference points straight
down. -/
theorem nudge_eval_down (A B : Shape) (t : ℝ) (ht : 0 < t)
    (h : B.pos - A.pos = ⟨0, -t⟩) :
    get_amount_for_origin_on_edge A B = ⟨0, -TINY_NUMBER⟩ := by
  unfold get_amount_for_origin_on_edge
  simp only [h]
  rw [if_neg (by
    intro hc
    have := congrArg v2.y hc
    simp at this
    linarith)]
  rw [normalised_down t ht]
  unfold v2.scale
  ext <;> simp

theorem normalised_right (t : ℝ) (ht : 0 < t) :
    (⟨t, 0⟩ : v2).normalised_or_zero = ⟨1, 0⟩ := by
  have hne : (⟨t, 0⟩ : v2) ≠ 0 := by
    intro hc
    have := congrArg v2.x hc
    simp at this
    linarith
  rw [v2.normalised_eq_sdiv hne]
  have hlen : (⟨t, 0⟩ : v2).length = t := by
    unfold v2.length
    simp
    rw [Real.sqrt_sq ht.le]
  rw [hlen]
  unfold v2.sdiv
  ext <;> simp <;> field_simp

/-- The nudge for two shapes at exactly the same position. -/
theorem nudge_eval_same (A B : Shape) (h : B.pos - A.pos = 0) :
    get_amount_for_origin_on_edge A B = ⟨TINY_NUMBER, 0⟩ := by
  unfold get_amount_for_origin_on_edge
  simp only [h, if_true]
  rw [show v2.y 0 = 0 from rfl, normalised_right TINY_NUMBER TINY_NUMBER_pos]
  unfold v2.scale
  ext <;> simp

/-! ### The overlapping-squares traces -/

theorem sqA_trace (n : Nat) :
    shapes_are_overlapping (n + 1) (square ⟨0, 1/10⟩) (square ⟨0, 0⟩)
      = some (some [⟨0, 3/10⟩, ⟨0, -(1/10)⟩]) := by
  apply gjk_one_shot
  · rw [sq_mink_up ⟨0, 1/10⟩ ⟨0, 0⟩ ⟨0, 1⟩ rfl (by norm_num)]
    simp only [v2.mk_eq_mk]
    norm_num
  · rw [show (origin - ⟨0, 3/10⟩ : v2) = ⟨0, -(3/10)⟩ from by
      unfold origin; ext <;> simp]
    rw [sq_mink_down ⟨0, 1/10⟩ ⟨0, 0⟩ ⟨0, -(3/10)⟩ rfl (by norm_num)]
    simp only [v2.mk_eq_mk]
    norm_num
  · rw [show (origin - ⟨0, 3/10⟩ : v2) = ⟨0, -(3/10)⟩ from by
      unfold origin; ext <;> simp]
    norm_num [dot, TINY_NUMBER]
  · unfold origin_is_between_points origin
    constructor <;> norm_num [dot]
  · apply (nid_eq_zero_iff _ _).mpr
    unfold cross origin
    simp

theorem sqA_amount (n : Nat) :
    get_overlap_amount (n + 1) (square ⟨0, 1/10⟩) (square ⟨0, 0⟩)
      = some ⟨0, -TINY_NUMBER⟩ := by
  have h : (square ⟨0, 0⟩).pos - (square ⟨0, 1/10⟩).pos = (⟨0, -(1/10)⟩ : v2) := by
    show (⟨0, 0⟩ - ⟨0, 1/10⟩ : v2) = _
    ext <;> simp
  rw [amount_two_simplex _ _ _ _ n (sqA_trace n),
    nudge_eval_down _ _ (1/10) (by norm_num) h]

theorem sqA_moved_trace (n : Nat) :
    shapes_are_overlapping (n + 1) (square ⟨0, 1/10 + TINY_NUMBER⟩) (square ⟨0, 0⟩)
      = some (some [⟨0, 3/10 + TINY_NUMBER⟩, ⟨0, -(1/10) + TINY_NUMBER⟩]) := by
  apply gjk_one_shot
  · rw [sq_mink_up ⟨0, 1/10 + TINY_NUMBER⟩ ⟨0, 0⟩ ⟨0, 1⟩ rfl (by norm_num)]
    simp only [v2.mk_eq_mk]
    norm_num [TINY_NUMBER]
  · rw [show (origin - ⟨0, 3/10 + TINY_NUMBER⟩ : v2) = ⟨0, -(3/10 + TINY_NUMBER)⟩ from by
      unfold origin; ext <;> simp]
    rw [sq_mink_down ⟨0, 1/10 + TINY_NUMBER⟩ ⟨0, 0⟩ _ rfl (by norm_num [TINY_NUMBER])]
    simp only [v2.mk_eq_mk]
    norm_num [TINY_NUMBER]
  · rw [show (origin - ⟨0, 3/10 + TINY_NUMBER⟩ : v2) = ⟨0, -(3/10 + TINY_NUMBER)⟩ from by
      unfold origin; ext <;> simp]
    norm_num [dot, TINY_NUMBER]
  · unfold origin_is_between_points origin
    constructor <;> norm_num [dot, TINY_NUMBER]
  · apply (nid_eq_zero_iff _ _).mpr
    unfold cross origin
    simp

/-! ## Claim C1 -/

theorem square_corners_ne_nil (p : v2) : (square p).corners ≠ [] := by
  simp [square, sq_corners]

/-- Claim C1, counterexample: for the unit-side squares A at (0, 1/10) and B at
the origin, the overlap query reports overlap and the penetration query returns
the nonzero vector (0, -TINY_NUMBER); but moving A by subtracting that vector
puts A at (0, 1/10 + TINY_NUMBER), where the overlap query still reports
overlap rather than returning false. The simplex returned by GJK has only two
vertices, so the code takes the degenerate nudge path, whose TINY_NUMBER-sized
vector cannot resolve a penetration of depth 1/10. -/
theorem C1_counterexample :
    shapes_are_overlapping 64 (square ⟨0, 1/10⟩) (square ⟨0, 0⟩)
        = some (some [⟨0, 3/10⟩, ⟨0, -(1/10)⟩]) ∧
    get_overlap_amount 64 (square ⟨0, 1/10⟩) (square ⟨0, 0⟩) = some ⟨0, -TINY_NUMBER⟩ ∧
    (square ⟨0, 1/10⟩).pos - ⟨0, -TINY_NUMBER⟩ = (⟨0, 1/10 + TINY_NUMBER⟩ : v2) ∧
    shapes_are_overlapping 64 (square ⟨0, 1/10 + TINY_NUMBER⟩) (square ⟨0, 0⟩)
        = some (some [⟨0, 3/10 + TINY_NUMBER⟩, ⟨0, -(1/10) + TINY_NUMBER⟩]) := by
  refine ⟨sqA_trace 63, sqA_amount 63, ?_, sqA_moved_trace 63⟩
  show (⟨0, 1/10⟩ : v2) - ⟨0, -TINY_NUMBER⟩ = _
  ext <;> simp <;> ring

/-- C1 (amended): for every pair of shapes A and B with nonempty corner lists,
if the overlap query reports overlap and the penetration query returns a
vector v, then v is nonzero. (The original claim's second half — that moving A
by -v makes the overlap query return false — is refuted by
the counterexample: the degenerate two-vertex simplex path returns a fixed
TINY_NUMBER-sized nudge that need not resolve the overlap.) -/
theorem C1_overlap_amount_nonzero (fuel : Nat) (A B : Shape) (s : List v2) (v : v2)
    (hA : A.corners ≠ []) (hB : B.corners ≠ [])
    (hover : shapes_are_overlapping fuel A B = some (some s))
    (hv : get_overlap_amount fuel A B = some v) : v ≠ 0 :=
  overlap_amount_ne_zero_aux fuel A B s v hA hB hover hv

/-- Claim C1, witness for the amended theorem at the overlapping squares. -/
theorem C1_overlap_amount_nonzero_witness :
    ((square ⟨0, 1/10⟩).corners ≠ [] ∧ (square ⟨0, 0⟩).corners ≠ [] ∧
     shapes_are_overlapping 64 (square ⟨0, 1/10⟩) (square ⟨0, 0⟩)
        = some (some [⟨0, 3/10⟩, ⟨0, -(1/10)⟩]) ∧
     get_overlap_amount 64 (square ⟨0, 1/10⟩) (square ⟨0, 0⟩) = some ⟨0, -TINY_NUMBER⟩) ∧
    (⟨0, -TINY_NUMBER⟩ : v2) ≠ 0 :=
  ⟨⟨square_corners_ne_nil _, square_corners_ne_nil _, sqA_trace 63, sqA_amount 63⟩,
   C1_overlap_amount_nonzero 64 (square ⟨0, 1/10⟩) (square ⟨0, 0⟩)
     [⟨0, 3/10⟩, ⟨0, -(1/10)⟩] ⟨0, -TINY_NUMBER⟩
     (square_corners_ne_nil _) (square_corners_ne_nil _) (sqA_trace 63) (sqA_amount 63)⟩

/-! ## Claim C2 -/

theorem sq_sup_pm (pos : v2) (d : v2) (hy : d.y < 0) (hs : 0 < d.x + d.y) :
    get_edge_of_rotated_shape (square pos) d = ⟨1/10, -(1/10)⟩ := by
  have c1 : ¬ dot (⟨-(1/10), -(1/10)⟩ : v2) d < dot (⟨-(1/10), 1/10⟩ : v2) d := by
    simp only [dot]; push_neg; nlinarith
  have c2 : dot (⟨-(1/10), -(1/10)⟩ : v2) d < dot (⟨1/10, 1/10⟩ : v2) d := by
    simp only [dot]; nlinarith
  have c3 : dot (⟨1/10, 1/10⟩ : v2) d < dot (⟨1/10, -(1/10)⟩ : v2) d := by
    simp only [dot]; nlinarith
  unfold square get_edge_of_rotated_shape best_rotated_corner sq_corners
  rw [List.foldl_cons, support_step_zero_none,
    List.foldl_cons, support_step_zero_some, if_neg c1,
    List.foldl_cons, support_step_zero_some, if_pos c2,
    List.foldl_cons, support_step_zero_some, if_pos c3,
    List.foldl_nil, Option.getD_some]

theorem sq_sup_mp (pos : v2) (d : v2) (hx : d.x < 0) (hy : 0 < d.y) :
    get_edge_of_rotated_shape (square pos) d = ⟨-(1/10), 1/10⟩ := by
  have c1 : dot (⟨-(1/10), -(1/10)⟩ : v2) d < dot (⟨-(1/10), 1/10⟩ : v2) d := by
    simp only [dot]; nlinarith
  have c2 : ¬ dot (⟨-(1/10), 1/10⟩ : v2) d < dot (⟨1/10, 1/10⟩ : v2) d := by
    simp only [dot]; push_neg; nlinarith
  have c3 : ¬ dot (⟨-(1/10), 1/10⟩ : v2) d < dot (⟨1/10, -(1/10)⟩ : v2) d := by
    simp only [dot]; push_neg; nlinarith
  unfold square get_edge_of_rotated_shape best_rotated_corner sq_corners
  rw [List.foldl_cons, support_step_zero_none,
    List.foldl_cons, support_step_zero_some, if_pos c1,
    List.foldl_cons, support_step_zero_some, if_neg c2,
    List.foldl_cons, support_step_zero_some, if_neg c3,
    List.foldl_nil, Option.getD_some]

theorem sq_mink_pm (pa pb : v2) (d : v2) (hx : 0 < d.x) (hy : d.y < 0)
    (hs : 0 < d.x + d.y) :
    get_minkowski_diffed_edge (square pa) (square pb) d
      = ⟨pa.x - pb.x + 1/5, pa.y - pb.y - 1/5⟩ := by
  unfold get_minkowski_diffed_edge
  rw [sq_sup_pm pa d hy hs, sq_sup_mp pb (-d) (by simp; linarith) (by simp; linarith)]
  show (pa + ⟨1/10, -(1/10)⟩) - (pb + ⟨-(1/10), 1/10⟩) = _
  ext <;> simp <;> ring

/-- The far-apart squares: GJK exits with NO OVERLAP on the first iteration. -/
theorem sq_far_trace (n : Nat) :
    shapes_are_overlapping (n + 1) (square ⟨-10, 3⟩) (square ⟨10, 3⟩) = some none := by
  have hm0 : get_minkowski_diffed_edge (square ⟨-10, 3⟩) (square ⟨10, 3⟩) ⟨0, 1⟩
      = ⟨-20, 1/5⟩ := by
    rw [sq_mink_up ⟨-10, 3⟩ ⟨10, 3⟩ ⟨0, 1⟩ rfl (by norm_num)]
    simp only [v2.mk_eq_mk]
    norm_num
  apply gjk_one_shot_false _ _ _ n hm0
  rw [show (origin - ⟨-20, 1/5⟩ : v2) = ⟨20, -(1/5)⟩ from by
    unfold origin; ext <;> simp]
  rw [sq_mink_pm ⟨-10, 3⟩ ⟨10, 3⟩ ⟨20, -(1/5)⟩ (by norm_num) (by norm_num) (by norm_num)]
  norm_num [dot, TINY_NUMBER]

theorem sq_far_amount (n : Nat) :
    get_overlap_amount (n + 1) (square ⟨-10, 3⟩) (square ⟨10, 3⟩) = some 0 :=
  get_overlap_amount_no_overlap _ _ _ (sq_far_trace n)

/-- C2: for shapes with nonempty corner lists, whenever the penetration query
returns a value v, that value is the zero vector if and only if the overlap
query reported no overlap: the query returns exactly (0,0) on a NO-OVERLAP
verdict and a nonzero vector on an overlap verdict. -/
theorem C2_amount_zero_iff_no_overlap (fuel : Nat) (A B : Shape) (v : v2)
    (hA : A.corners ≠ []) (hB : B.corners ≠ [])
    (hv : get_overlap_amount fuel A B = some v) :
    v = 0 ↔ shapes_are_overlapping fuel A B = some none := by
  cases hso : shapes_are_overlapping fuel A B with
  | none =>
    exfalso
    unfold get_overlap_amount at hv
    rw [hso] at hv
    exact Option.noConfusion hv
  | some o =>
    cases o with
    | none =>
      have h0 := get_overlap_amount_no_overlap fuel A B hso
      rw [hv] at h0
      have hv0 : v = 0 := Option.some.inj h0
      simp [hv0]
    | some s =>
      have hne := overlap_amount_ne_zero_aux fuel A B s v hA hB hso hv
      simp [hne]

/-- Claim C2, witness: the far-apart squares get the NO-OVERLAP verdict and
penetration (0,0), and the iff instantiates there. -/
theorem C2_amount_zero_iff_no_overlap_witness :
    ((square ⟨-10, 3⟩).corners ≠ [] ∧ (square ⟨10, 3⟩).corners ≠ [] ∧
     get_overlap_amount 64 (square ⟨-10, 3⟩) (square ⟨10, 3⟩) = some 0) ∧
    ((0 : v2) = 0 ↔ shapes_are_overlapping 64 (square ⟨-10, 3⟩) (square ⟨10, 3⟩) = some none) :=
  ⟨⟨square_corners_ne_nil _, square_corners_ne_nil _, sq_far_amount 63⟩,
   C2_amount_zero_iff_no_overlap 64 (square ⟨-10, 3⟩) (square ⟨10, 3⟩) 0
     (square_corners_ne_nil _) (square_corners_ne_nil _) (sq_far_amount 63)⟩

/-! ## Claim C5 -/

/-- C5: in any iteration of the GJK descent, if the dot product of the freshly
computed Minkowski support point with the current search direction is at most
TINY_NUMBER, the query immediately returns the NO-OVERLAP verdict. -/
theorem C5_early_exit (A B : Shape) (fuel : Nat) (simplex : List v2) (sd : v2)
    (hdot : dot (get_minkowski_diffed_edge A B sd) sd ≤ TINY_NUMBER) :
    gjk_loop A B (fuel + 1) simplex sd = some none := by
  rw [gjk_loop_succ, if_pos hdot]

/-- Claim C5, witness at the first GJK iteration of the far-apart squares. -/
theorem C5_early_exit_witness :
    dot (get_minkowski_diffed_edge (square ⟨-10, 3⟩) (square ⟨10, 3⟩) ⟨20, -(1/5)⟩)
        ⟨20, -(1/5)⟩ ≤ TINY_NUMBER ∧
    gjk_loop (square ⟨-10, 3⟩) (square ⟨10, 3⟩) 64 [⟨-20, 1/5⟩] ⟨20, -(1/5)⟩ = some none :=
  have hd : dot (get_minkowski_diffed_edge (square ⟨-10, 3⟩) (square ⟨10, 3⟩) ⟨20, -(1/5)⟩)
      ⟨20, -(1/5)⟩ ≤ TINY_NUMBER := by
    rw [sq_mink_pm ⟨-10, 3⟩ ⟨10, 3⟩ ⟨20, -(1/5)⟩ (by norm_num) (by norm_num) (by norm_num)]
    norm_num [dot, TINY_NUMBER]
  ⟨hd, C5_early_exit (square ⟨-10, 3⟩) (square ⟨10, 3⟩) 63 [⟨-20, 1/5⟩] ⟨20, -(1/5)⟩ hd⟩

/-! ## Claim C6 -/

/-- Two coincident squares: GJK finds the origin on its first simplex edge. -/
theorem sq_same_trace (n : Nat) :
    shapes_are_overlapping (n + 1) (square ⟨0, 0⟩) (square ⟨0, 0⟩)
      = some (some [⟨0, 1/5⟩, ⟨0, -(1/5)⟩]) := by
  apply gjk_one_shot
  · rw [sq_mink_up ⟨0, 0⟩ ⟨0, 0⟩ ⟨0, 1⟩ rfl (by norm_num)]
    simp only [v2.mk_eq_mk]
    norm_num
  · rw [show (origin - ⟨0, 1/5⟩ : v2) = ⟨0, -(1/5)⟩ from by
      unfold origin; ext <;> simp]
    rw [sq_mink_down ⟨0, 0⟩ ⟨0, 0⟩ ⟨0, -(1/5)⟩ rfl (by norm_num)]
    simp only [v2.mk_eq_mk]
    norm_num
  · rw [show (origin - ⟨0, 1/5⟩ : v2) = ⟨0, -(1/5)⟩ from by
      unfold origin; ext <;> simp]
    norm_num [dot, TINY_NUMBER]
  · unfold origin_is_between_points origin
    constructor <;> norm_num [dot]
  · apply (nid_eq_zero_iff _ _).mpr
    unfold cross origin
    simp

theorem nudge_formula (A B : Shape) :
    get_amount_for_origin_on_edge A B
      = if B.pos - A.pos = 0 then (⟨TINY_NUMBER, 0⟩ : v2)
        else (B.pos - A.pos).normalised_or_zero.scale TINY_NUMBER := by
  by_cases h : B.pos - A.pos = 0
  · rw [if_pos h, nudge_eval_same A B h]
  · rw [if_neg h]
    show (if B.pos - A.pos = 0 then (⟨TINY_NUMBER, (B.pos - A.pos).y⟩ : v2)
          else B.pos - A.pos).normalised_or_zero.scale TINY_NUMBER = _
    rw [if_neg h]

/-- C6: whenever GJK reports overlap with a simplex of fewer than three
vertices, EPA is skipped and the penetration query returns (B.pos - A.pos)
normalised and scaled by TINY_NUMBER, defaulting to (TINY_NUMBER, 0) when the
two positions coincide exactly. -/
theorem C6_degenerate_simplex (fuel : Nat) (A B : Shape) (s : List v2)
    (hover : shapes_are_overlapping fuel A B = some (some s))
    (hlen : s.length < 3) :
    get_overlap_amount fuel A B
      = some (if B.pos - A.pos = 0 then (⟨TINY_NUMBER, 0⟩ : v2)
              else (B.pos - A.pos).normalised_or_zero.scale TINY_NUMBER) := by
  rw [← nudge_formula]
  obtain ⟨n, rfl⟩ : ∃ n, fuel = n + 1 := by
    cases fuel with
    | zero =>
      exfalso
      unfold shapes_are_overlapping gjk_loop at hover
      exact Option.noConfusion hover
    | succ n => exact ⟨n, rfl⟩
  by_cases h2 : s.length < 2
  · unfold get_overlap_amount
    rw [hover]
    dsimp only
    rw [if_pos h2]
  · have h2' : s.length = 2 := by omega
    match s, h2' with
    | [a, b], _ => exact amount_two_simplex A B a b n hover

/-- Claim C6, witness: two coincident squares produce the 2-vertex simplex and
the (TINY_NUMBER, 0) nudge. -/
theorem C6_degenerate_simplex_witness :
    (shapes_are_overlapping 64 (square ⟨0, 0⟩) (square ⟨0, 0⟩)
        = some (some [⟨0, 1/5⟩, ⟨0, -(1/5)⟩]) ∧
     ([(⟨0, 1/5⟩ : v2), ⟨0, -(1/5)⟩]).length < 3) ∧
    get_overlap_amount 64 (square ⟨0, 0⟩) (square ⟨0, 0⟩)
      = some (if (square ⟨0, 0⟩).pos - (square ⟨0, 0⟩).pos = 0 then (⟨TINY_NUMBER, 0⟩ : v2)
              else ((square ⟨0, 0⟩).pos - (square ⟨0, 0⟩).pos).normalised_or_zero.scale
                TINY_NUMBER) :=
  ⟨⟨sq_same_trace 63, by norm_num⟩,
   C6_degenerate_simplex 64 (square ⟨0, 0⟩) (square ⟨0, 0⟩) [⟨0, 1/5⟩, ⟨0, -(1/5)⟩]
     (sq_same_trace 63) (by norm_num)⟩

/-! ## Claim C7 -/

/-- C7: from any GJK state satisfying the loop invariant, (a) any simplex the
descent finally reports contains no duplicate vertices, and (b) if the new
Minkowski support point lies within TINY_NUMBER of an existing simplex vertex,
the descent immediately returns the NO-OVERLAP verdict. -/
theorem C7_no_duplicates (A B : Shape) (fuel : Nat) (simplex : List v2) (sd : v2)
    (hInv : GjkInv simplex sd) :
    (∀ s', gjk_loop A B fuel simplex sd = some (some s') → s'.Pairwise (· ≠ ·)) ∧
    (∀ p ∈ simplex,
      (get_minkowski_diffed_edge A B sd).distance p ≤ TINY_NUMBER →
        gjk_loop A B (fuel + 1) simplex sd = some none) := by
  constructor
  · intro s' hs'
    exact (gjk_loop_good A B fuel simplex sd hInv s' hs').1
  · intro p hp hclose
    rw [gjk_loop_succ, if_pos (hInv.near_vertex_exit hp hclose)]

/-- Claim C7, witness: a square 5.2 above the origin square, one GJK state with
the support point coinciding with the only simplex vertex. -/
theorem C7_no_duplicates_witness :
    GjkInv [⟨0, 5⟩] ⟨0, -5⟩ ∧
    gjk_loop (square ⟨0, 26/5⟩) (square ⟨0, 0⟩) 65 [⟨0, 5⟩] ⟨0, -5⟩ = some none :=
  have hInv : GjkInv [(⟨0, 5⟩ : v2)] ⟨0, -5⟩ :=
    Or.inl ⟨⟨0, 5⟩, rfl, Or.inl (by unfold origin; ext <;> simp)⟩
  have hd : (get_minkowski_diffed_edge (square ⟨0, 26/5⟩) (square ⟨0, 0⟩)
      ⟨0, -5⟩).distance ⟨0, 5⟩ ≤ TINY_NUMBER := by
    rw [show get_minkowski_diffed_edge (square ⟨0, 26/5⟩) (square ⟨0, 0⟩) ⟨0, -5⟩
        = ⟨0, 5⟩ from by
      rw [sq_mink_down ⟨0, 26/5⟩ ⟨0, 0⟩ ⟨0, -5⟩ rfl (by norm_num)]
      simp only [v2.mk_eq_mk]
      norm_num]
    simp [v2.distance]
    norm_num [TINY_NUMBER]
  ⟨hInv, (C7_no_duplicates (square ⟨0, 26/5⟩) (square ⟨0, 0⟩) 64 [⟨0, 5⟩] ⟨0, -5⟩ hInv).2
    ⟨0, 5⟩ (by simp) hd⟩

/-! ## Claim C3 -/

theorem best3 (c1 c2 c3 d : v2) :
    best_rotated_corner [c1, c2, c3] 0 d =
      some (if dot c1 d < dot c2 d then (if dot c2 d < dot c3 d then c3 else c2)
            else (if dot c1 d < dot c3 d then c3 else c1)) := by
  unfold best_rotated_corner
  rw [List.foldl_cons, support_step_zero_none, List.foldl_cons, support_step_zero_some]
  by_cases h1 : dot c1 d < dot c2 d
  · rw [if_pos h1, List.foldl_cons, support_step_zero_some, List.foldl_nil, if_pos h1]
    by_cases h2 : dot c2 d < dot c3 d
    · rw [if_pos h2, if_pos h2]
    · rw [if_neg h2, if_neg h2]
  · rw [if_neg h1, List.foldl_cons, support_step_zero_some, List.foldl_nil, if_neg h1]
    by_cases h2 : dot c1 d < dot c3 d
    · rw [if_pos h2, if_pos h2]
    · rw [if_neg h2, if_neg h2]

theorem sup3_eval (pos c1 c2 c3 d : v2) :
    get_edge_of_rotated_shape { pos := pos, angle := 0, corners := [c1, c2, c3] } d
      = if dot c1 d < dot c2 d then (if dot c2 d < dot c3 d then c3 else c2)
        else (if dot c1 d < dot c3 d then c3 else c1) := by
  unfold get_edge_of_rotated_shape
  rw [show ({ pos := pos, angle := 0, corners := [c1, c2, c3] } : Shape).corners
      = [c1, c2, c3] from rfl,
    show ({ pos := pos, angle := 0, corners := [c1, c2, c3] } : Shape).angle = 0 from rfl,
    best3, Option.getD_some]

theorem triAB_false (n : Nat) :
    shapes_are_overlapping (n + 1) triA triB = some none := by
  have hm0 : get_minkowski_diffed_edge triA triB ⟨0, 1⟩
      = ⟨-(44999999/25000000), 100000001/100000000⟩ := by
    unfold get_minkowski_diffed_edge triA triB
    rw [sup3_eval, sup3_eval]
    norm_num [dot]
  apply gjk_one_shot_false _ _ _ n hm0
  rw [show (origin - ⟨-(44999999/25000000), 100000001/100000000⟩ : v2)
      = ⟨44999999/25000000, -(100000001/100000000)⟩ from by
    unfold origin; ext <;> simp]
  rw [show get_minkowski_diffed_edge triA triB ⟨44999999/25000000, -(100000001/100000000)⟩
      = ⟨1/25000000, 1/100000000⟩ from by
    unfold get_minkowski_diffed_edge triA triB
    rw [sup3_eval, sup3_eval]
    norm_num [dot]]
  norm_num [dot, TINY_NUMBER]

theorem triBA_true (n : Nat) :
    shapes_are_overlapping (n + 1) triB triA
      = some (some [⟨79999999/25000000, 79999999/100000000⟩,
                    ⟨-(1/25000000), -(1/100000000)⟩]) := by
  apply gjk_one_shot
  · unfold get_minkowski_diffed_edge triA triB
    rw [sup3_eval, sup3_eval]
    norm_num [dot]
  · rw [show (origin - ⟨79999999/25000000, 79999999/100000000⟩ : v2)
        = ⟨-(79999999/25000000), -(79999999/100000000)⟩ from by
      unfold origin; ext <;> simp]
    unfold get_minkowski_diffed_edge triA triB
    rw [sup3_eval, sup3_eval]
    norm_num [dot]
  · rw [show (origin - ⟨79999999/25000000, 79999999/100000000⟩ : v2)
        = ⟨-(79999999/25000000), -(79999999/100000000)⟩ from by
      unfold origin; ext <;> simp]
    norm_num [dot, TINY_NUMBER]
  · unfold origin_is_between_points origin
    constructor <;> norm_num [dot]
  · apply (nid_eq_zero_iff _ _).mpr
    unfold cross origin
    norm_num

/-- C3, refuting the claim on the code: the overlap query is not symmetric.
For the triangles triA and triB, which touch along a boundary tangency,
overlaps(triA, triB) exits with NO OVERLAP on the first iteration (the support
dot falls just below TINY_NUMBER), while overlaps(triB, triA) starts from a
different seed support, passes the progress test, finds the origin on its
first simplex edge, and reports overlap. -/
theorem C3_overlap_not_symmetric :
    shapes_are_overlapping 64 triA triB = some none ∧
    shapes_are_overlapping 64 triB triA
      = some (some [⟨79999999/25000000, 79999999/100000000⟩,
                    ⟨-(1/25000000), -(1/100000000)⟩]) ∧
    shapes_are_overlapping 64 triA triB ≠ shapes_are_overlapping 64 triB triA := by
  refine ⟨triAB_false 63, triBA_true 63, ?_⟩
  rw [triAB_false 63, triBA_true 63]
  simp

/-! ## Claims C8 and C9: gift-wrap trace machinery -/

theorem mk_sub_mk (a b c d : ℝ) : (⟨a, b⟩ : v2) - ⟨c, d⟩ = ⟨a - c, b - d⟩ := rfl

theorem normalised_eval (x y : ℝ) (h : ¬(x = 0 ∧ y = 0)) :
    (⟨x, y⟩ : v2).normalised_or_zero
      = ⟨x / Real.sqrt (x ^ 2 + y ^ 2), y / Real.sqrt (x ^ 2 + y ^ 2)⟩ := by
  rw [v2.normalised_eq_sdiv (fun hc => h (v2.eq_zero_iff.mp hc))]
  rfl

theorem nrm_10 : (⟨1, 0⟩ : v2).normalised_or_zero = ⟨1, 0⟩ := by
  rw [normalised_eval 1 0 (by norm_num)]
  norm_num

theorem nrm_20 : (⟨2, 0⟩ : v2).normalised_or_zero = ⟨1, 0⟩ := by
  rw [normalised_eval 2 0 (by norm_num)]
  rw [show ((2:ℝ) ^ 2 + 0 ^ 2) = 2 ^ 2 from by norm_num, Real.sqrt_sq (by norm_num)]
  norm_num

theorem nrm_m10 : (⟨-1, 0⟩ : v2).normalised_or_zero = ⟨-1, 0⟩ := by
  rw [normalised_eval (-1) 0 (by norm_num)]
  norm_num

theorem nrm_m20 : (⟨-2, 0⟩ : v2).normalised_or_zero = ⟨-1, 0⟩ := by
  rw [normalised_eval (-2) 0 (by norm_num)]
  rw [show ((-2:ℝ) ^ 2 + 0 ^ 2) = 2 ^ 2 from by norm_num, Real.sqrt_sq (by norm_num)]
  norm_num

theorem nrm_01 : (⟨0, 1⟩ : v2).normalised_or_zero = ⟨0, 1⟩ := by
  rw [normalised_eval 0 1 (by norm_num)]
  norm_num

theorem nrm_0m1 : (⟨0, -1⟩ : v2).normalised_or_zero = ⟨0, -1⟩ := by
  rw [normalised_eval 0 (-1) (by norm_num)]
  norm_num

theorem nrm_11 : (⟨1, 1⟩ : v2).normalised_or_zero
    = ⟨1 / Real.sqrt 2, 1 / Real.sqrt 2⟩ := by
  rw [normalised_eval 1 1 (by norm_num)]
  norm_num

theorem nrm_m1m1 : (⟨-1, -1⟩ : v2).normalised_or_zero
    = ⟨-(1 / Real.sqrt 2), -(1 / Real.sqrt 2)⟩ := by
  rw [normalised_eval (-1) (-1) (by norm_num)]
  norm_num [neg_div]

theorem nrm_1m1 : (⟨1, -1⟩ : v2).normalised_or_zero
    = ⟨1 / Real.sqrt 2, -(1 / Real.sqrt 2)⟩ := by
  rw [normalised_eval 1 (-1) (by norm_num)]
  norm_num [neg_div]

theorem nrm_m11 : (⟨-1, 1⟩ : v2).normalised_or_zero
    = ⟨-(1 / Real.sqrt 2), 1 / Real.sqrt 2⟩ := by
  rw [normalised_eval (-1) 1 (by norm_num)]
  norm_num [neg_div]

theorem nrm_unit_mm : (⟨-(1 / Real.sqrt 2), -(1 / Real.sqrt 2)⟩ : v2).normalised_or_zero
    = ⟨-(1 / Real.sqrt 2), -(1 / Real.sqrt 2)⟩ := by
  have hs : Real.sqrt 2 * Real.sqrt 2 = 2 := Real.mul_self_sqrt (by norm_num)
  have h1 : (0:ℝ) < 1 / Real.sqrt 2 := by positivity
  rw [normalised_eval _ _ (by intro h; have := h.1; linarith)]
  rw [show (-(1 / Real.sqrt 2)) ^ 2 + (-(1 / Real.sqrt 2)) ^ 2 = 1 from by
    field_simp]
  simp

theorem sqrt2_facts :
    (Real.sqrt 2)⁻¹ * (Real.sqrt 2)⁻¹ = 1/2 ∧ ¬(Real.sqrt 2 ≤ 0) ∧
      (0:ℝ) < (Real.sqrt 2)⁻¹ := by
  have hs : Real.sqrt 2 * Real.sqrt 2 = 2 := Real.mul_self_sqrt (by norm_num)
  have hpos : 0 < Real.sqrt 2 := Real.sqrt_pos.mpr (by norm_num)
  refine ⟨?_, by push_neg; exact hpos, by positivity⟩
  rw [← mul_inv, hs]
  norm_num

theorem sqrt2_between : 1 < Real.sqrt 2 ∧ Real.sqrt 2 < 2 := by
  have hs : Real.sqrt 2 * Real.sqrt 2 = 2 := Real.mul_self_sqrt (by norm_num)
  have hnn : 0 ≤ Real.sqrt 2 := Real.sqrt_nonneg 2
  constructor <;> nlinarith

theorem best_candidate_eq (corners : List v2) (last sd : v2) :
    best_candidate corners last sd = corners.foldl (bc_step last sd) none := rfl

theorem gift_wrap_succ (corners : List v2) (fuel : Nat) (convex : List v2) (sd : v2) :
    gift_wrap_loop corners (fuel + 1) convex sd =
      match best_candidate corners (convex.getLastD 0) sd with
      | some (best, _) =>
        if best = convex.headD 0 then some convex
        else gift_wrap_loop corners fuel (convex ++ [best])
          (best - convex.getLastD 0).normalised_or_zero
      | none => gift_wrap_loop corners fuel convex sd.right_normal_or_zero := rfl

theorem bc8_1 : best_candidate quad_corners ⟨0, 0⟩ ⟨0, 1⟩
    = some (⟨1, 1⟩, 1 / Real.sqrt 2) := by
  have h1 : (0:ℝ) < 1 / Real.sqrt 2 := by positivity
  rw [best_candidate_eq]
  unfold quad_corners
  simp only [List.foldl_cons, List.foldl_nil, bc_step, mk_sub_mk]
  norm_num [nrm_10, nrm_20, nrm_11, dot, h1]

theorem bc8_2 : best_candidate quad_corners ⟨1, 1⟩ ⟨1 / Real.sqrt 2, 1 / Real.sqrt 2⟩
    = some (⟨2, 0⟩, 0) := by
  obtain ⟨hinv, hs0, hipos⟩ := sqrt2_facts
  rw [best_candidate_eq]
  unfold quad_corners
  simp only [List.foldl_cons, List.foldl_nil, bc_step, mk_sub_mk]
  norm_num [nrm_0m1, nrm_m1m1, nrm_1m1, dot, hinv, hs0, hipos]

theorem bc8_3 : best_candidate quad_corners ⟨2, 0⟩ ⟨1 / Real.sqrt 2, -(1 / Real.sqrt 2)⟩
    = none := by
  obtain ⟨hinv, hs0, hipos⟩ := sqrt2_facts
  rw [best_candidate_eq]
  unfold quad_corners
  simp only [List.foldl_cons, List.foldl_nil, bc_step, mk_sub_mk]
  norm_num [nrm_m10, nrm_m20, nrm_m11, dot, hinv, hs0, hipos]

theorem bc8_4 : best_candidate quad_corners ⟨2, 0⟩ ⟨-(1 / Real.sqrt 2), -(1 / Real.sqrt 2)⟩
    = some (⟨1, 0⟩, 1 / Real.sqrt 2) := by
  obtain ⟨hinv, hs0, hipos⟩ := sqrt2_facts
  rw [best_candidate_eq]
  unfold quad_corners
  simp only [List.foldl_cons, List.foldl_nil, bc_step, mk_sub_mk]
  norm_num [nrm_m10, nrm_m20, nrm_m11, dot, hinv, hs0, hipos]

theorem bc8_5 : best_candidate quad_corners ⟨1, 0⟩ ⟨-1, 0⟩ = some (⟨0, 0⟩, 1) := by
  obtain ⟨hinv, hs0, hipos⟩ := sqrt2_facts
  rw [best_candidate_eq]
  unfold quad_corners
  simp only [List.foldl_cons, List.foldl_nil, bc_step, mk_sub_mk]
  norm_num [nrm_m10, nrm_10, nrm_01, dot, hinv, hs0, hipos]

theorem gw8 (n : Nat) :
    gift_wrap_loop quad_corners (n + 5) [⟨0, 0⟩] ⟨0, 1⟩
      = some [⟨0, 0⟩, ⟨1, 1⟩, ⟨2, 0⟩, ⟨1, 0⟩] := by
  rw [gift_wrap_succ]
  rw [show List.getLastD [(⟨0, 0⟩ : v2)] 0 = ⟨0, 0⟩ from rfl, bc8_1]
  dsimp only
  rw [if_neg (by intro hc; have := congrArg v2.x hc; norm_num at this)]
  rw [show ([(⟨0, 0⟩ : v2)] ++ [⟨1, 1⟩]) = [⟨0, 0⟩, ⟨1, 1⟩] from rfl]
  rw [show ((⟨1, 1⟩ : v2) - ⟨0, 0⟩) = ⟨1, 1⟩ from by ext <;> simp, nrm_11]
  rw [gift_wrap_succ]
  rw [show List.getLastD [(⟨0, 0⟩ : v2), ⟨1, 1⟩] 0 = ⟨1, 1⟩ from rfl, bc8_2]
  dsimp only
  rw [if_neg (by intro hc; have := congrArg v2.x hc; norm_num at this)]
  rw [show ([(⟨0, 0⟩ : v2), ⟨1, 1⟩] ++ [⟨2, 0⟩]) = [⟨0, 0⟩, ⟨1, 1⟩, ⟨2, 0⟩] from rfl]
  rw [show ((⟨2, 0⟩ : v2) - ⟨1, 1⟩) = ⟨1, -1⟩ from by ext <;> simp <;> norm_num, nrm_1m1]
  rw [gift_wrap_succ]
  rw [show List.getLastD [(⟨0, 0⟩ : v2), ⟨1, 1⟩, ⟨2, 0⟩] 0 = ⟨2, 0⟩ from rfl, bc8_3]
  dsimp only
  rw [show (⟨1 / Real.sqrt 2, -(1 / Real.sqrt 2)⟩ : v2).right_normal_or_zero
      = ⟨-(1 / Real.sqrt 2), -(1 / Real.sqrt 2)⟩ from by
    unfold v2.right_normal_or_zero
    rw [show (⟨(⟨1 / Real.sqrt 2, -(1 / Real.sqrt 2)⟩ : v2).y,
        -(⟨1 / Real.sqrt 2, -(1 / Real.sqrt 2)⟩ : v2).x⟩ : v2)
        = ⟨-(1 / Real.sqrt 2), -(1 / Real.sqrt 2)⟩ from rfl]
    exact nrm_unit_mm]
  rw [gift_wrap_succ]
  rw [show List.getLastD [(⟨0, 0⟩ : v2), ⟨1, 1⟩, ⟨2, 0⟩] 0 = ⟨2, 0⟩ from rfl, bc8_4]
  dsimp only
  rw [if_neg (by intro hc; have := congrArg v2.x hc; norm_num at this)]
  rw [show ([(⟨0, 0⟩ : v2), ⟨1, 1⟩, ⟨2, 0⟩] ++ [⟨1, 0⟩])
      = [⟨0, 0⟩, ⟨1, 1⟩, ⟨2, 0⟩, ⟨1, 0⟩] from rfl]
  rw [show ((⟨1, 0⟩ : v2) - ⟨2, 0⟩) = ⟨-1, 0⟩ from by ext <;> simp <;> norm_num, nrm_m10]
  rw [gift_wrap_succ]
  rw [show List.getLastD [(⟨0, 0⟩ : v2), ⟨1, 1⟩, ⟨2, 0⟩, ⟨1, 0⟩] 0 = ⟨1, 0⟩ from rfl, bc8_5]
  dsimp only
  rw [if_pos (show (⟨0, 0⟩ : v2)
      = List.headD [(⟨0, 0⟩ : v2), ⟨1, 1⟩, ⟨2, 0⟩, ⟨1, 0⟩] 0 from rfl)]

theorem lm8 : leftmost_corner quad_corners = ⟨0, 0⟩ := by
  unfold leftmost_corner quad_corners
  simp only [List.foldl_cons, List.foldl_nil, List.headD]
  norm_num

theorem gocc8 : get_ordered_convex_corners 8 quad_corners
    = some [⟨0, 0⟩, ⟨1, 1⟩, ⟨2, 0⟩, ⟨1, 0⟩] := by
  unfold get_ordered_convex_corners
  rw [lm8]
  exact gw8 3

theorem length_eval (x y : ℝ) : (⟨x, y⟩ : v2).length = Real.sqrt (x ^ 2 + y ^ 2) := rfl

theorem len_00 : (⟨0, 0⟩ : v2).length = 0 := by rw [length_eval]; simp

theorem len_11 : (⟨1, 1⟩ : v2).length = Real.sqrt 2 := by rw [length_eval]; norm_num

theorem len_20 : (⟨2, 0⟩ : v2).length = 2 := by
  rw [length_eval, show ((2:ℝ) ^ 2 + 0 ^ 2) = 2 ^ 2 from by norm_num,
    Real.sqrt_sq (by norm_num)]

theorem len_10 : (⟨1, 0⟩ : v2).length = 1 := by rw [length_eval]; norm_num

theorem len_01 : (⟨0, 1⟩ : v2).length = 1 := by rw [length_eval]; norm_num

theorem quad_pairwise : quad_corners.Pairwise (· ≠ ·) := by
  unfold quad_corners
  norm_num [List.pairwise_cons, v2.mk_eq_mk]

/-- C8, refuting the claim on the code: `try_make_polygon` accepts the corner
list ⟨1,0⟩, ⟨0,0⟩, ⟨2,0⟩, ⟨1,1⟩ even though ⟨0,0⟩, ⟨1,0⟩, ⟨2,0⟩ are three
collinear corners of it (an inline triple by the code's own
`has_inline_triple` criterion). The gift-wrap walk keeps the first corner on
dot ties, so the collinear midpoint ⟨1,0⟩ is picked up as a hull corner and
the length check passes, producing a polygon with a straight-line vertex. -/
theorem C8_collinear_accepted :
    has_inline_triple quad_corners ∧
    try_make_polygon 8 0 quad_corners
      = some (some { pos := origin, angle := 0, radius := 2,
                     corners := [⟨0, 0⟩, ⟨1, 1⟩, ⟨2, 0⟩, ⟨1, 0⟩] }) := by
  obtain ⟨h1s, hlt2⟩ := sqrt2_between
  constructor
  · refine ⟨1, 0, 2, by norm_num [quad_corners], by norm_num [quad_corners],
      by norm_num [quad_corners], by norm_num, by norm_num, by norm_num, ?_⟩
    rw [show (List.getD quad_corners 0 0 - List.getD quad_corners 1 0) = ⟨1, 0⟩ from by
      unfold quad_corners; ext <;> simp]
    rw [show (List.getD quad_corners 2 0 - List.getD quad_corners 0 0) = ⟨1, 0⟩ from by
      unfold quad_corners; ext <;> simp <;> norm_num]
    rw [nrm_10]
    norm_num [dot]
  · unfold try_make_polygon
    rw [if_neg (by simp [quad_corners])]
    rw [if_neg (show ¬ contains_duplicates quad_corners from not_not_intro quad_pairwise)]
    rw [gocc8]
    dsimp only
    rw [if_neg (by simp [quad_corners])]
    simp only [Option.some.injEq, PolyShape.mk.injEq]
    refine ⟨trivial, trivial, ?_, trivial⟩
    simp only [List.foldl_cons, List.foldl_nil]
    norm_num [len_00, len_11, len_20, len_10, h1s, hlt2, Real.sqrt_pos]

theorem bc9_1 : best_candidate elbow_corners ⟨0, 0⟩ ⟨0, 1⟩ = some (⟨0, 1⟩, 1) := by
  obtain ⟨hinv, hs0, hipos⟩ := sqrt2_facts
  obtain ⟨h1s, hlt2⟩ := sqrt2_between
  have hn1 : ¬((1:ℝ) < (Real.sqrt 2)⁻¹) := by
    push_neg
    rw [inv_le_one_iff]
    right
    linarith
  rw [best_candidate_eq]
  unfold elbow_corners
  simp only [List.foldl_cons, List.foldl_nil, bc_step, mk_sub_mk]
  norm_num [nrm_01, nrm_11, dot, hinv, hs0, hipos, hn1]

theorem bc9_2 : best_candidate elbow_corners ⟨0, 1⟩ ⟨0, 1⟩ = some (⟨1, 1⟩, 0) := by
  obtain ⟨hinv, hs0, hipos⟩ := sqrt2_facts
  rw [best_candidate_eq]
  unfold elbow_corners
  simp only [List.foldl_cons, List.foldl_nil, bc_step, mk_sub_mk]
  norm_num [nrm_0m1, nrm_10, dot, hinv, hs0, hipos]

theorem bc9_3 : best_candidate elbow_corners ⟨1, 1⟩ ⟨1, 0⟩ = none := by
  obtain ⟨hinv, hs0, hipos⟩ := sqrt2_facts
  rw [best_candidate_eq]
  unfold elbow_corners
  simp only [List.foldl_cons, List.foldl_nil, bc_step, mk_sub_mk]
  norm_num [nrm_m1m1, nrm_m10, dot, hinv, hs0, hipos]

theorem bc9_4 : best_candidate elbow_corners ⟨1, 1⟩ ⟨0, -1⟩
    = some (⟨0, 0⟩, 1 / Real.sqrt 2) := by
  obtain ⟨hinv, hs0, hipos⟩ := sqrt2_facts
  rw [best_candidate_eq]
  unfold elbow_corners
  simp only [List.foldl_cons, List.foldl_nil, bc_step, mk_sub_mk]
  norm_num [nrm_m1m1, nrm_m10, dot, hinv, hs0, hipos]

theorem rn_10 : (⟨1, 0⟩ : v2).right_normal_or_zero = ⟨0, -1⟩ := by
  unfold v2.right_normal_or_zero
  rw [show (⟨(⟨1, 0⟩ : v2).y, -(⟨1, 0⟩ : v2).x⟩ : v2) = ⟨0, -1⟩ from by
    ext <;> simp]
  exact nrm_0m1

theorem gw9 (n : Nat) :
    gift_wrap_loop elbow_corners (n + 4) [⟨0, 0⟩] ⟨0, 1⟩
      = some [⟨0, 0⟩, ⟨0, 1⟩, ⟨1, 1⟩] := by
  rw [gift_wrap_succ]
  rw [show List.getLastD [(⟨0, 0⟩ : v2)] 0 = ⟨0, 0⟩ from rfl, bc9_1]
  dsimp only
  rw [if_neg (by intro hc; have := congrArg v2.y hc; norm_num at this)]
  rw [show ([(⟨0, 0⟩ : v2)] ++ [⟨0, 1⟩]) = [⟨0, 0⟩, ⟨0, 1⟩] from rfl]
  rw [show ((⟨0, 1⟩ : v2) - ⟨0, 0⟩) = ⟨0, 1⟩ from by ext <;> simp, nrm_01]
  rw [gift_wrap_succ]
  rw [show List.getLastD [(⟨0, 0⟩ : v2), ⟨0, 1⟩] 0 = ⟨0, 1⟩ from rfl, bc9_2]
  dsimp only
  rw [if_neg (by intro hc; have := congrArg v2.x hc; norm_num at this)]
  rw [show ([(⟨0, 0⟩ : v2), ⟨0, 1⟩] ++ [⟨1, 1⟩]) = [⟨0, 0⟩, ⟨0, 1⟩, ⟨1, 1⟩] from rfl]
  rw [show ((⟨1, 1⟩ : v2) - ⟨0, 1⟩) = ⟨1, 0⟩ from by ext <;> simp <;> norm_num, nrm_10]
  rw [gift_wrap_succ]
  rw [show List.getLastD [(⟨0, 0⟩ : v2), ⟨0, 1⟩, ⟨1, 1⟩] 0 = ⟨1, 1⟩ from rfl, bc9_3]
  dsimp only
  rw [rn_10]
  rw [gift_wrap_succ]
  rw [show List.getLastD [(⟨0, 0⟩ : v2), ⟨0, 1⟩, ⟨1, 1⟩] 0 = ⟨1, 1⟩ from rfl, bc9_4]
  dsimp only
  rw [if_pos (show (⟨0, 0⟩ : v2)
      = List.headD [(⟨0, 0⟩ : v2), ⟨0, 1⟩, ⟨1, 1⟩] 0 from rfl)]

theorem lm9 : leftmost_corner elbow_corners = ⟨0, 0⟩ := by
  unfold leftmost_corner elbow_corners
  simp only [List.foldl_cons, List.foldl_nil, List.headD]
  norm_num

theorem gocc9 : get_ordered_convex_corners 8 elbow_corners
    = some [⟨0, 0⟩, ⟨0, 1⟩, ⟨1, 1⟩] := by
  unfold get_ordered_convex_corners
  rw [lm9]
  exact gw9 4

theorem elbow_pairwise : elbow_corners.Pairwise (· ≠ ·) := by
  unfold elbow_corners
  norm_num [List.pairwise_cons, v2.mk_eq_mk]

theorem tmp9 (r0 : ℝ) :
    try_make_polygon 8 r0 elbow_corners
      = some (some { pos := origin, angle := 0,
                     radius := List.foldl (fun (r : ℝ) (c : v2) =>
                       if r < c.length then c.length else r) r0 [⟨0, 0⟩, ⟨0, 1⟩, ⟨1, 1⟩],
                     corners := [⟨0, 0⟩, ⟨0, 1⟩, ⟨1, 1⟩] }) := by
  unfold try_make_polygon
  rw [if_neg (by simp [elbow_corners])]
  rw [if_neg (show ¬ contains_duplicates elbow_corners from not_not_intro elbow_pairwise)]
  rw [gocc9]
  dsimp only
  rw [if_neg (by simp [elbow_corners])]

/-- C9, refuting the claim on the code: the shape produced by
`try_make_polygon` has position (0,0) and angle 0 as claimed, but its stored
radius is folded starting from the uninitialised `shape.radius` value `r0`:
with a garbage value 10^9 in that memory the radius comes out as 10^9 instead
of the maximum corner length sqrt 2, so the radius field does not equal the
maximum corner length. -/
theorem C9_radius_uninitialised :
    try_make_polygon 8 (10 ^ 9) elbow_corners
      = some (some { pos := origin, angle := 0, radius := 10 ^ 9,
                     corners := [⟨0, 0⟩, ⟨0, 1⟩, ⟨1, 1⟩] }) ∧
    try_make_polygon 8 0 elbow_corners
      = some (some { pos := origin, angle := 0, radius := Real.sqrt 2,
                     corners := [⟨0, 0⟩, ⟨0, 1⟩, ⟨1, 1⟩] }) ∧
    (10 ^ 9 : ℝ) ≠ Real.sqrt 2 := by
  obtain ⟨h1s, hlt2⟩ := sqrt2_between
  refine ⟨?_, ?_, by intro h; rw [← h] at hlt2; norm_num at hlt2⟩
  · rw [tmp9]
    simp only [Option.some.injEq, PolyShape.mk.injEq]
    refine ⟨trivial, trivial, ?_, trivial⟩
    simp only [List.foldl_cons, List.foldl_nil]
    norm_num [len_00, len_01, len_11]
    intro h
    linarith
  · rw [tmp9]
    simp only [Option.some.injEq, PolyShape.mk.injEq]
    refine ⟨trivial, trivial, ?_, trivial⟩
    simp only [List.foldl_cons, List.foldl_nil]
    norm_num [len_00, len_01, len_11, h1s]

/-! ## Claim C10 -/

/-- C10: calling the later-variant `try_make_polygon` with a null output-shape
pointer returns false for every corner list, including fully valid ones — the
null check sits in the success branch and turns it into a `return false`. -/
theorem C10_null_out (fuel : Nat) (r0 : ℝ) (corners : List v2) (r : Option PolyShape)
    (h : try_make_polygon_nullable fuel r0 corners true = some r) : r = none := by
  unfold try_make_polygon_nullable at h
  by_cases h3 : corners.length < 3
  · rw [if_pos h3] at h
    exact (Option.some.inj h).symm
  · rw [if_neg h3] at h
    by_cases hd : contains_duplicates corners
    · rw [if_pos hd] at h
      exact (Option.some.inj h).symm
    · rw [if_neg hd] at h
      cases hic : is_convex fuel corners with
      | none =>
        rw [hic] at h
        exact Option.noConfusion h
      | some b =>
        rw [hic] at h
        cases b
        · simp only [] at h
          exact (Option.some.inj h).symm
        · simp only [if_true] at h
          exact (Option.some.inj h).symm

/-- Claim C10, witness at the empty corner list. -/
theorem C10_null_out_witness :
    try_make_polygon_nullable 1 0 [] true = some none ∧
      (none : Option PolyShape) = none :=
  have h : try_make_polygon_nullable 1 0 [] true = some none := by
    unfold try_make_polygon_nullable
    rw [if_pos (by norm_num)]
  ⟨h, C10_null_out 1 0 [] none h⟩

end rw_gjk
